import Mathlib

/-!
Shallow embedding of the translation pipeline of `src/translator.py`
(class `EnhancedTranslator`), together with proofs of the behavioural
claims about span masking, the quality-gated retry loop, the progress
stream and document reassembly.

Texts are modelled as `List Char` (Python `str`, ASCII semantics for the
character classes `\w`, `\d`, `\s`, `[a-zA-Z]` and for case folding).
Machine-level recursion that Python performs with loops is expressed with
structural fuel so that every definition is executable by `decide`.
-/

set_option maxHeartbeats 2000000

namespace WordTrans

/-! ### Character classes (ASCII semantics of the Python regex classes) -/

/-- Python regex `\w` (ASCII fragment): alphanumeric or underscore. -/
def isWordChar (c : Char) : Bool := c.isAlphanum || c == '_'

/-- Python `str.strip()` (ASCII whitespace fragment). -/
def strip (s : List Char) : List Char :=
  ((s.dropWhile Char.isWhitespace).reverse.dropWhile Char.isWhitespace).reverse

/-- Python slicing `text[s:e]`. -/
def slice (t : List Char) (s e : ℕ) : List Char := (t.drop s).take (e - s)

/-! ### Decimal rendering of counters (the `{ut_idx}` / `{ne_idx}` of the
f-strings building placeholder tokens, `translator.py` line 101) -/

/-- Little-endian digits of `n`, with structural fuel (`fuel ≥ n` suffices). -/
def decAux : ℕ → ℕ → List Char
  | 0, _ => []
  | _ + 1, 0 => []
  | f + 1, n + 1 => Nat.digitChar ((n + 1) % 10) :: decAux f ((n + 1) / 10)

/-- Decimal rendering of a natural number, as Python `str(n)` / f-string. -/
def natDec (n : ℕ) : List Char :=
  if n = 0 then ['0'] else (decAux n n).reverse

/-- Inverse reading of a decimal digit character. -/
def charVal (c : Char) : ℕ := c.toNat - '0'.toNat

/-- Reading a decimal string back (for injectivity of `natDec`). -/
def parseDec (l : List Char) : ℕ := l.foldl (fun acc c => acc * 10 + charVal c) 0

theorem parseDec_append_singleton (l : List Char) (c : Char) :
    parseDec (l ++ [c]) = parseDec l * 10 + charVal c := by
  simp [parseDec, List.foldl_append]

theorem charVal_digitChar {d : ℕ} (hd : d < 10) :
    charVal (Nat.digitChar d) = d := by
  interval_cases d <;> decide

theorem decAux_parse : ∀ (f n : ℕ), 0 < n → n ≤ f →
    parseDec (decAux f n).reverse = n := by
  intro f
  induction f with
  | zero => intro n hn hf; omega
  | succ f ih =>
    intro n hn hf
    match n, hn with
    | n + 1, _ =>
      rw [decAux]
      rw [List.reverse_cons, parseDec_append_singleton]
      rcases Nat.eq_zero_or_pos ((n + 1) / 10) with hz | hp
      · have : decAux f ((n + 1) / 10) = [] := by
          rw [hz]; cases f <;> rfl
        rw [this]
        simp only [List.reverse_nil]
        have h10 : (n + 1) % 10 = n + 1 := by omega
        rw [charVal_digitChar (by omega)]
        simp [parseDec, h10]
      · have hle : (n + 1) / 10 ≤ f := by omega
        rw [ih _ hp hle, charVal_digitChar (by omega)]
        omega

theorem parseDec_natDec (n : ℕ) : parseDec (natDec n) = n := by
  by_cases h : n = 0
  · subst h; decide
  · rw [natDec, if_neg h]
    exact decAux_parse n n (by omega) le_rfl

theorem natDec_injective : Function.Injective natDec := by
  intro a b h
  have := congrArg parseDec h
  rwa [parseDec_natDec, parseDec_natDec] at this

theorem decAux_digits : ∀ (f n : ℕ), ∀ c ∈ decAux f n, c.isDigit := by
  intro f
  induction f with
  | zero => intro n c hc; simp [decAux] at hc
  | succ f ih =>
    intro n c hc
    match n with
    | 0 => simp [decAux] at hc
    | n + 1 =>
      rw [decAux] at hc
      rcases List.mem_cons.1 hc with h | h
      · subst h
        have : (n + 1) % 10 < 10 := by omega
        interval_cases h : ((n + 1) % 10) <;> decide
      · exact ih _ _ h

theorem natDec_digits (n : ℕ) : ∀ c ∈ natDec n, c.isDigit := by
  intro c hc
  by_cases h : n = 0
  · subst h; simp [natDec] at hc; subst hc; decide
  · rw [natDec, if_neg h, List.mem_reverse] at hc
    exact decAux_digits n n c hc

theorem natDec_ne_nil (n : ℕ) : natDec n ≠ [] := by
  by_cases h : n = 0
  · subst h; decide
  · rw [natDec, if_neg h]
    intro hc
    have := parseDec_natDec n
    rw [natDec, if_neg h, hc] at this
    simp [parseDec] at this
    omega

/-! ### Placeholder tokens (`f"<<UT{ut_idx}>>"` / `f"<<NE{ne_idx}>>"`,
`translator.py` line 101) -/

/-- The kind letters of a token; `true` is a `UserTerm` (`UT`) token. -/
def kindChars : Bool → List Char
  | true => ['U', 'T']
  | false => ['N', 'E']

/-- The placeholder token for the `n`-th protected span of a kind. -/
def tokOf (kb : Bool) (n : ℕ) : List Char :=
  '<' :: '<' :: (kindChars kb ++ natDec n ++ ['>', '>'])

/-- Token shape predicate: some placeholder token of either kind. -/
def TokShape (t : List Char) : Prop := ∃ kb n, t = tokOf kb n

theorem tokOf_injective {kb kb' : Bool} {n n' : ℕ}
    (h : tokOf kb n = tokOf kb' n') : kb = kb' ∧ n = n' := by
  unfold tokOf at h
  have h1 := List.cons_injective h
  have h2 := List.cons_injective h1
  have hkb : kb = kb' := by
    cases kb <;> cases kb' <;> first
      | rfl
      | (exfalso
         simp only [kindChars, List.cons_append, List.cons.injEq] at h2
         exact absurd h2.1 (by decide))
  refine ⟨hkb, ?_⟩
  subst hkb
  have h3 : natDec n ++ ['>', '>'] = natDec n' ++ ['>', '>'] := by
    cases kb <;> simpa [kindChars, List.cons_append, List.cons.injEq] using h2
  have h4 : natDec n = natDec n' := by
    exact List.append_cancel_right h3
  exact natDec_injective h4

/-! ### `str.replace` and `_unmask_text` (`translator.py` lines 110-115) -/

/-- One pass of Python `text.replace(pat, rep)` with iteration fuel: each
iteration consumes at least one character when `pat` is non-empty. -/
def repGo (pat rep : List Char) : ℕ → List Char → List Char
  | 0, s => s
  | f + 1, s =>
    if !pat.isEmpty && pat.isPrefixOf s then
      rep ++ repGo pat rep f (s.drop pat.length)
    else
      match s with
      | [] => []
      | c :: s' => c :: repGo pat rep f s'

/-- Python `text.replace(pat, rep)`: replace every non-overlapping
occurrence of `pat`, scanning left to right. -/
def replaceAll (s pat rep : List Char) : List Char := repGo pat rep s.length s

/-- `_unmask_text`: substitute every token with its original value,
longest token first (`sorted(token_map.items(), key=lambda x: -len(x[0]))`). -/
def unmaskText (t : List Char) (tokenMap : List (List Char × List Char)) : List Char :=
  if tokenMap.isEmpty || t.isEmpty then t
  else
    (List.insertionSort
        (fun a b : List Char × List Char => b.1.length ≤ a.1.length) tokenMap).foldl
      (fun s p => replaceAll s p.1 p.2) t

/-! ### `_find_user_term_spans` (`translator.py` lines 44-65) -/

/-- Case-insensitive literal match of `term` at position `i` of `text`
(the `(?i)` regex flag; ASCII case folding). -/
def matchAt (text term : List Char) (i : ℕ) : Bool :=
  ((text.drop i).take term.length).map Char.toLower == term.map Char.toLower

/-- The lookarounds `(?<!\w)` and `(?!\w)` around a match at `[i, i+|term|)`. -/
def boundaryOkAt (text term : List Char) (i : ℕ) : Bool :=
  (match i with
   | 0 => true
   | j + 1 =>
     match text[j]? with
     | none => true
     | some c => !isWordChar c)
  &&
  (match text[i + term.length]? with
   | none => true
   | some c => !isWordChar c)

/-- `re.finditer` scan for a literal pattern: try position `i`; on a match
jump past it, otherwise advance one character.  `boundary` selects the
word-boundary pattern versus the unanchored fallback. -/
def scanGo (text term : List Char) (boundary : Bool) : ℕ → ℕ → List (ℕ × ℕ)
  | 0, _ => []
  | f + 1, i =>
    if i + term.length ≤ text.length then
      if matchAt text term i && (!boundary || boundaryOkAt text term i) then
        (i, i + term.length) :: scanGo text term boundary f (i + term.length)
      else
        scanGo text term boundary f (i + 1)
    else []

/-- All matches of `term` in `text` (boundary-anchored or fallback). -/
def scanMatches (text term : List Char) (boundary : Bool) : List (ℕ × ℕ) :=
  scanGo text term boundary (text.length + 1) 0

/-- Deduplication keeping first occurrences (the `{t for t in user_terms if t}`
set; Python set order is unspecified, first-occurrence order is one
admissible realisation — no claim depends on the tie order). -/
def ddGo {α : Type} [BEq α] (seen : List α) : List α → List α
  | [] => []
  | x :: xs => if seen.contains x then ddGo seen xs else x :: ddGo (x :: seen) xs

/-- `sorted(..., key=lambda x: len(x), reverse=True)`: stable sort of the
terms, longest first. -/
def sortTermsDesc (ts : List (List Char)) : List (List Char) :=
  List.insertionSort (fun a b : List Char => b.length ≤ a.length) ts

/-- Inner loop over the matches of one term: a match any of whose positions
is already occupied is skipped, otherwise its span is recorded and its
positions are claimed (`occupied`, lines 57-63). -/
def addMatches (text : List Char) : List (ℕ × ℕ) → List ℕ →
    List (ℕ × ℕ × List Char) × List ℕ
  | [], claimed => ([], claimed)
  | (s, e) :: rest, claimed =>
    if claimed.any (fun i => decide (s ≤ i) && decide (i < e)) then
      addMatches text rest claimed
    else
      let r := addMatches text rest (claimed ++ List.range' s (e - s))
      ((s, e, slice text s e) :: r.1, r.2)

/-- Outer loop over the sorted terms (lines 50-63). -/
def termLoop (text : List Char) : List (List Char) → List ℕ →
    List (ℕ × ℕ × List Char)
  | [], _ => []
  | term :: rest, claimed =>
    let ms0 := scanMatches text term true
    let ms := if ms0.isEmpty then scanMatches text term false else ms0
    let r := addMatches text ms claimed
    r.1 ++ termLoop text rest r.2

/-- `_find_user_term_spans` (lines 44-65): non-overlapping `UserTerm`
spans, longest term first, sorted by start offset. -/
def findUserTermSpans (text : List Char) (userTerms : List (List Char)) :
    List (ℕ × ℕ × List Char) :=
  if userTerms.isEmpty || text.isEmpty then []
  else
    List.insertionSort (fun a b : ℕ × ℕ × List Char => a.1 ≤ b.1)
      (termLoop text
        (sortTermsDesc (ddGo [] (userTerms.filter (fun t => !t.isEmpty)))) [])

/-! ### `_mask_text` (`translator.py` lines 84-108)

The named-entity detector (`_find_spacy_entity_spans`) is an external,
optional collaborator (a spaCy model); its output is passed in as the
`spacy` argument, a list of `(start, end, value)` spans over the same text
(the code guarantees `0 ≤ s < e ≤ len(text)`, values the matching slices,
sorted by start). -/

/-- Line 89-92: drop every entity span that overlaps any user-term span
(`not any(not (s_e <= u_s or s_s >= u_e) ...)`). -/
def filterSpacySpans (userSpans spacy : List (ℕ × ℕ × List Char)) :
    List (ℕ × ℕ × List Char) :=
  spacy.filter (fun sp =>
    !(userSpans.any (fun u =>
        !(decide (sp.2.1 ≤ u.1) || decide (u.2.1 ≤ sp.1)))))

/-- Line 93: tag user spans `"UT"` (`true`) and entity spans `"NE"`
(`false`) and concatenate. -/
def combinedSpans (userSpans spacyF : List (ℕ × ℕ × List Char)) :
    List (ℕ × ℕ × List Char × Bool) :=
  userSpans.map (fun sp => (sp.1, sp.2.1, sp.2.2, true)) ++
    spacyF.map (fun sp => (sp.1, sp.2.1, sp.2.2, false))

/-- Lines 97-108: walk the sorted spans; a span starting before the cursor
is skipped (`if s < cursor: continue`), otherwise emit the literal gap, a
fresh kind-scoped token, record the token, and advance the cursor. -/
def maskLoop (text : List Char) :
    List (ℕ × ℕ × List Char × Bool) → ℕ → ℕ → ℕ →
    List Char × List (List Char × List Char)
  | [], cursor, _, _ => (text.drop cursor, [])
  | (s, e, v, k) :: rest, cursor, ut, ne =>
    if s < cursor then maskLoop text rest cursor ut ne
    else
      let token := tokOf k (if k then ut else ne)
      let r := maskLoop text rest e (if k then ut + 1 else ut)
        (if k then ne else ne + 1)
      ((text.drop cursor).take (s - cursor) ++ token ++ r.1, (token, v) :: r.2)

/-- `_mask_text` (lines 84-108). -/
def maskText (text : List Char) (userTerms : List (List Char))
    (spacy : List (ℕ × ℕ × List Char)) :
    List Char × List (List Char × List Char) :=
  if text.isEmpty then (text, [])
  else
    let us := findUserTermSpans text userTerms
    let fs := filterSpacySpans us spacy
    let combined := combinedSpans us fs
    if combined.isEmpty then (text, [])
    else
      maskLoop text
        (List.insertionSort (fun a b : ℕ × ℕ × List Char × Bool => a.1 ≤ b.1)
          combined) 0 0 0

/-! ### `validate_translation_quality` (`translator.py` lines 175-186)

The scoring request is an external collaborator; its outcome is an
`Option (List Char)`: `none` models a raised exception (transport error),
`some resp` the returned message content.  The `except` catch-all maps
every failure to the neutral score 20. -/

/-- `int(re.search(r'\d+', s).group())`: the first maximal run of digits,
or `none` when there is none (in which case `.group()` raises). -/
def firstNumber : List Char → Option ℕ
  | [] => none
  | c :: rest =>
    if c.isDigit then some (parseDec (c :: rest.takeWhile Char.isDigit))
    else firstNumber rest

/-- `validate_translation_quality`: parse and clamp into `[0, 40]`, with
neutral fallback 20 on any failure. -/
def validateQuality (resp : Option (List Char)) : ℕ :=
  match resp with
  | none => 20
  | some content =>
    match firstNumber (strip content) with
    | none => 20
    | some k => min 40 k

/-! ### `translate_text_with_quality` (`translator.py` lines 139-173)

The chat-completion request of attempt `n` is an external collaborator,
modelled by `oracle n : Option (List Char)` (`none` = raised exception,
`some raw` = message content); the scoring request of attempt `n` is
`qresp n`.  `requests` counts issued translation requests, `sleeps`
counts executed `asyncio.sleep` backoffs (line 172; note that an empty
translation retries via `continue`, skipping the sleep). -/

def maxRetries : ℕ := 3
def qualityThreshold : ℕ := 30

/-- The outcome of the per-segment retry loop. -/
structure LoopResult where
  text : List Char
  score : ℕ
  requests : ℕ
  sleeps : ℕ
  deriving DecidableEq, Repr

/-- The candidate of attempt `n`: the unmasked, stripped response. -/
def candidateOf (text : List Char) (terms : List (List Char))
    (spacy : List (ℕ × ℕ × List Char)) (raw : List Char) : List Char :=
  unmaskText (strip raw) (maskText text terms spacy).2

/-- The `for attempt in range(self.max_retries)` loop, fuel = remaining
attempts; fuel 0 is the (unreachable) fall-through of line 173. -/
def twqGo (text : List Char) (terms : List (List Char))
    (spacy : List (ℕ × ℕ × List Char)) (oracle qresp : ℕ → Option (List Char)) :
    ℕ → ℕ → ℕ → ℕ → LoopResult
  | 0, _, reqs, slps => ⟨text, 0, reqs, slps⟩
  | fuel + 1, attempt, reqs, slps =>
    match oracle attempt with
    | none =>
      -- `except`: line 168-170, then the backoff sleep of line 172
      if attempt = maxRetries - 1 then ⟨text, 0, reqs + 1, slps⟩
      else twqGo text terms spacy oracle qresp fuel (attempt + 1) (reqs + 1) (slps + 1)
    | some raw =>
      let translated := candidateOf text terms spacy raw
      if translated.isEmpty then
        -- lines 159-161: `continue` skips the sleep of line 172
        if attempt = maxRetries - 1 then ⟨text, 0, reqs + 1, slps⟩
        else twqGo text terms spacy oracle qresp fuel (attempt + 1) (reqs + 1) slps
      else
        let q := validateQuality (qresp attempt)
        if qualityThreshold ≤ q ∨ attempt = maxRetries - 1 then
          ⟨translated, q, reqs + 1, slps⟩
        else twqGo text terms spacy oracle qresp fuel (attempt + 1) (reqs + 1) (slps + 1)

/-- `translate_text_with_quality` (lines 139-173). -/
def translateTextWithQuality (text : List Char) (terms : List (List Char))
    (spacy : List (ℕ × ℕ × List Char))
    (oracle qresp : ℕ → Option (List Char)) : LoopResult :=
  twqGo text terms spacy oracle qresp maxRetries 0 0 0

/-! ### Prefix pattern and segmentation (`translator.py` lines 191-202)

`prefix_pattern = r'^\s*(?:\d+\.\s*|\(\d+\)\s*|[a-zA-Z]\.\s*|\([a-zA-Z]\)\s*)'`.
The four alternatives start with a digit, `(`, a letter, `(` respectively,
none of which is whitespace, so the greedy `\s*` never backtracks and the
alternation is first-match. -/

/-- Alternative `\d+\.\s*` of the prefix pattern, tried on the text after
leading whitespace. -/
def tryNumM (rest : List Char) : Option (List Char) :=
  let ds := rest.takeWhile Char.isDigit
  if ds.isEmpty then none
  else
    match rest.drop ds.length with
    | '.' :: tail => some (ds ++ '.' :: tail.takeWhile Char.isWhitespace)
    | _ => none

/-- Alternative `\(\d+\)\s*`. -/
def tryParenNumM (rest : List Char) : Option (List Char) :=
  match rest with
  | '(' :: r1 =>
    let ds := r1.takeWhile Char.isDigit
    if ds.isEmpty then none
    else
      match r1.drop ds.length with
      | ')' :: tail => some ('(' :: ds ++ ')' :: tail.takeWhile Char.isWhitespace)
      | _ => none
  | _ => none

/-- Alternative `[a-zA-Z]\.\s*`. -/
def tryLetterM (rest : List Char) : Option (List Char) :=
  match rest with
  | c :: '.' :: tail =>
    if c.isAlpha then some (c :: '.' :: tail.takeWhile Char.isWhitespace)
    else none
  | _ => none

/-- Alternative `\([a-zA-Z]\)\s*`. -/
def tryParenLetterM (rest : List Char) : Option (List Char) :=
  match rest with
  | '(' :: c :: ')' :: tail =>
    if c.isAlpha then some ('(' :: c :: ')' :: tail.takeWhile Char.isWhitespace)
    else none
  | _ => none

/-- `prefix_pattern.match(t)`: the matched marker (`group(0)`), or `none`.
The four alternatives start with a digit, `(`, a letter, `(` respectively,
none of which is whitespace, so the greedy `\s*` never backtracks and the
alternation is first-match. -/
def markerMatch (t : List Char) : Option (List Char) :=
  let ws := t.takeWhile Char.isWhitespace
  let rest := t.dropWhile Char.isWhitespace
  match tryNumM rest <|> tryParenNumM rest <|> tryLetterM rest <|>
      tryParenLetterM rest with
  | some m => some (ws ++ m)
  | none => none

/-- Lines 195-198 / 233-235: split a paragraph text into its ordinal/list
marker (`prefix = match.group(0)`) and core text (`text[len(prefix):]`). -/
def splitCore (t : List Char) : List Char × List Char :=
  match markerMatch t with
  | some m => (m, t.drop m.length)
  | none => ([], t)

/-- `is_translatable` (lines 117-118): non-empty, not whitespace-only,
contains a letter. -/
def isTranslatable (t : List Char) : Bool :=
  !t.isEmpty && !(strip t).isEmpty && t.any Char.isAlpha

/-- Lines 193-202: the distinct translatable core texts of the document's
paragraph texts, in first-occurrence order (Python dict key order). -/
def uniqueCores (paras : List (List Char)) : List (List Char) :=
  ddGo [] ((paras.map (fun p => (splitCore p).2)).filter isTranslatable)

/-! ### Progress events (`translator.py` lines 215-225)

One event per completed segment, in completion order: the scores arrive
as a list `qs` (a permutation of the per-segment scores chosen by
`asyncio.as_completed`); event `i` (1-based) carries
`progress = (i / total) * 100` and the running average of the first `i`
scores.  Arithmetic is modelled exactly (in `ℚ`; Python uses floats). -/

/-- Running average of a score list (`sum(scores) / len(scores)`). -/
def avgQ (l : List ℕ) : ℚ := (l.sum : ℚ) / l.length

/-- The `for i, task in enumerate(asyncio.as_completed(tasks))` loop. -/
def emitGo (total : ℕ) (acc : List ℕ) : List ℕ → List (ℚ × ℚ)
  | [] => []
  | q :: rest =>
    (((acc.length + 1 : ℕ) : ℚ) / total * 100, avgQ (acc ++ [q])) ::
      emitGo total (acc ++ [q]) rest

/-- The progress-event stream of `process_enhanced_translation` for a
document with paragraph texts `paras`, where `qs` is the list of quality
scores in completion order (line 215: no events when there is nothing to
translate). -/
def pipelineEvents (paras : List (List Char)) (qs : List ℕ) : List (ℚ × ℚ) :=
  if (uniqueCores paras).isEmpty then [] else emitGo (uniqueCores paras).length [] qs

/-! ### Reassembly (`translator.py` lines 120-126 and 231-244) -/

/-- The style attributes `copy_run_style` copies from the original first
run onto the new run. -/
structure RunStyle where
  styleId : ℕ
  bold : Option Bool
  italic : Option Bool
  underline : Option Bool
  fontName : Option ℕ
  fontSize : Option ℕ
  colorRgb : Option ℕ
  deriving DecidableEq, Repr

/-- The style of a freshly added run (`para.add_run`). -/
def defaultRunStyle : RunStyle := ⟨0, none, none, none, none, none, none⟩

/-- `copy_run_style` (lines 120-126): copy every attribute; the font color
only when the source run has an explicit rgb color. -/
def copyRunStyle (src tgt : RunStyle) : RunStyle :=
  { styleId := src.styleId
    bold := src.bold
    italic := src.italic
    underline := src.underline
    fontName := src.fontName
    fontSize := src.fontSize
    colorRgb := if src.colorRgb.isSome then src.colorRgb else tgt.colorRgb }

/-- A paragraph is its list of runs; `para.text` is the concatenation of
the run texts. -/
def paraText (runs : List (List Char × RunStyle)) : List Char :=
  (runs.map Prod.fst).flatten

/-- Lines 231-244: recompute the marker/core split; if the core text is in
the translation cache, clear the paragraph and add a single run holding
`prefix + cached translation`, copying the original first run's style when
one existed; otherwise leave the paragraph unmodified. -/
def reassembleParagraph (cache : List (List Char × List Char))
    (runs : List (List Char × RunStyle)) : List (List Char × RunStyle) :=
  let pc := splitCore (paraText runs)
  match cache.lookup pc.2 with
  | some tr =>
    match runs.head? with
    | some firstRun => [(pc.1 ++ tr, copyRunStyle firstRun.2 defaultRunStyle)]
    | none => [(pc.1 ++ tr, defaultRunStyle)]
  | none => runs

/-! ### Decomposition predicates used by the masking theorems -/

/-- `Rep orig map masked`: `masked` is `orig` with a list of disjoint
pieces replaced in order — `orig = g₀ ++ v₁ ++ g₁ ++ … ++ vₘ ++ gₘ` and
`masked = g₀ ++ t₁ ++ g₁ ++ … ++ tₘ ++ gₘ`, with `map = [(t₁,v₁),…]`. -/
inductive Rep : List Char → List (List Char × List Char) → List Char → Prop
  | nil (s : List Char) : Rep s [] s
  | cons (g v orig' tok masked' : List Char) (map' : List (List Char × List Char)) :
      Rep orig' map' masked' →
      Rep (g ++ v ++ orig') ((tok, v) :: map') (g ++ tok ++ masked')

/-- The disjointness relation on spans: one ends before the other starts. -/
def spanDisj (a b : ℕ × ℕ × List Char) : Prop :=
  a.2.1 ≤ b.1 ∨ b.2.1 ≤ a.1

/-- What `_find_spacy_entity_spans` guarantees about its output
(`translator.py` lines 78-81): spans within bounds whose value is the
covered slice. -/
def spacyValid (text : List Char) (spacy : List (ℕ × ℕ × List Char)) : Prop :=
  ∀ sp ∈ spacy, sp.1 < sp.2.1 ∧ sp.2.1 ≤ text.length ∧
    sp.2.2 = slice text sp.1 sp.2.1

/-- Removing the first entry of a token map holding a given token. -/
def removeTok (map : List (List Char × List Char)) (t : List Char) :
    List (List Char × List Char) :=
  match map with
  | [] => []
  | p :: rest => if p.1 = t then rest else p :: removeTok rest t

/-- The spans the `maskLoop` cursor actually emits: a span starting before
the running cursor is dropped, an emitted span moves the cursor to its end. -/
def keptSpans : List (ℕ × ℕ × List Char × Bool) → ℕ → List (ℕ × ℕ × List Char × Bool)
  | [], _ => []
  | (s, e, v, k) :: rest, cursor =>
    if s < cursor then keptSpans rest cursor
    else (s, e, v, k) :: keptSpans rest e

/-! ## Theorems

### Elementary facts about `repGo` / `replaceAll` -/

theorem isPre_eq : ∀ (l₁ l₂ : List Char), l₁.isPrefixOf l₂ = true ↔ l₁ <+: l₂ := by
  intro l₁
  induction l₁ with
  | nil => intro l₂; simp [List.isPrefixOf]
  | cons a as ih =>
    intro l₂
    cases l₂ with
    | nil => simp [List.isPrefixOf]
    | cons b bs =>
      simp only [List.isPrefixOf, Bool.and_eq_true, beq_iff_eq, ih,
        List.cons_prefix_cons]

theorem repGo_nil {pat : List Char} (rep : List Char) (hpat : pat ≠ []) :
    ∀ f, repGo pat rep f [] = [] := by
  intro f
  cases f with
  | zero => rfl
  | succ f =>
    match pat, hpat with
    | c :: cs, _ => simp [repGo, List.isPrefixOf]

theorem repGo_fuel {pat : List Char} (rep : List Char) (hpat : pat ≠ []) :
    ∀ (n m : ℕ) (s : List Char), s.length ≤ n → s.length ≤ m →
      repGo pat rep n s = repGo pat rep m s := by
  intro n
  induction n with
  | zero =>
    intro m s hn _
    have : s = [] := by
      cases s with
      | nil => rfl
      | cons c cs => simp at hn
    subst this
    rw [repGo_nil rep hpat, repGo_nil rep hpat]
  | succ n ih =>
    intro m s hn hm
    cases s with
    | nil => rw [repGo_nil rep hpat, repGo_nil rep hpat]
    | cons c cs =>
      have hm1 : ∃ m', m = m' + 1 := by
        cases m with
        | zero => simp at hm
        | succ m' => exact ⟨m', rfl⟩
      obtain ⟨m', rfl⟩ := hm1
      have h1 : 1 ≤ pat.length := by
        cases pat with
        | nil => exact absurd rfl hpat
        | cons _ _ => simp
      simp only [List.length_cons] at hn hm
      by_cases h : (!pat.isEmpty && pat.isPrefixOf (c :: cs)) = true
      · rw [repGo, repGo, if_pos h, if_pos h]
        have hlen : ((c :: cs).drop pat.length).length ≤ n := by
          simp only [List.length_drop, List.length_cons]
          omega
        have hlen' : ((c :: cs).drop pat.length).length ≤ m' := by
          simp only [List.length_drop, List.length_cons]
          omega
        rw [ih _ _ hlen hlen']
      · rw [repGo, repGo, if_neg h, if_neg h]
        simp only [List.cons.injEq, true_and]
        exact ih _ _ (by omega) (by omega)

theorem replaceAll_nil (pat rep : List Char) :
    replaceAll [] pat rep = [] := rfl

/-- Non-matching head: one character is copied. -/
theorem replaceAll_cons_no {pat : List Char} (rep : List Char)
    {c : Char} {s : List Char} (h : ¬ pat <+: c :: s) :
    replaceAll (c :: s) pat rep = c :: replaceAll s pat rep := by
  have hb : pat.isPrefixOf (c :: s) = false := by
    by_contra hx
    have hx' : pat.isPrefixOf (c :: s) = true := by
      revert hx; cases pat.isPrefixOf (c :: s) <;> simp
    exact h ((isPre_eq _ _).1 hx')
  rw [replaceAll, List.length_cons, repGo, if_neg (by simp [hb])]
  rfl

/-- Matching position: `pat` is replaced and scanning resumes after it. -/
theorem replaceAll_match {pat : List Char} (rep : List Char) (hpat : pat ≠ [])
    {s : List Char} (h : pat <+: s) :
    replaceAll s pat rep = rep ++ replaceAll (s.drop pat.length) pat rep := by
  have hb : (!pat.isEmpty && pat.isPrefixOf s) = true := by
    have h1 : pat.isPrefixOf s = true := (isPre_eq _ _).2 h
    have h2 : pat.isEmpty = false := by
      cases pat with
      | nil => exact absurd rfl hpat
      | cons _ _ => rfl
    simp [h1, h2]
  have hs : ∃ d ss, s = d :: ss := by
    obtain ⟨t, ht⟩ := h
    cases pat with
    | nil => exact absurd rfl hpat
    | cons p ps =>
      cases s with
      | nil => simp at ht
      | cons d ss => exact ⟨d, ss, rfl⟩
  obtain ⟨d, ss, rfl⟩ := hs
  have h1 : 1 ≤ pat.length := by
    cases pat with
    | nil => exact absurd rfl hpat
    | cons _ _ => simp
  rw [replaceAll, List.length_cons, repGo, if_pos hb]
  congr 1
  exact repGo_fuel rep hpat _ _ _
    (by simp only [List.length_drop, List.length_cons]; omega)
    (le_refl _)

/-- No occurrence at all: `replace` is the identity. -/
theorem replaceAll_of_no_occ {pat : List Char} (rep : List Char) :
    ∀ {s : List Char}, ¬ pat <:+: s → replaceAll s pat rep = s := by
  intro s
  induction s with
  | nil => intro _; exact replaceAll_nil pat rep
  | cons c cs ih =>
    intro h
    have h1 : ¬ pat <+: c :: cs := fun hp => h hp.isInfix
    have h2 : ¬ pat <:+: cs := fun hi => h (hi.trans ⟨[c], [], by simp⟩)
    rw [replaceAll_cons_no rep h1, ih h2]

/-- Scanning skips a leading block in which no occurrence of `pat` starts. -/
theorem replaceAll_skip_block {pat : List Char} (rep : List Char) :
    ∀ (x y : List Char), (∀ k, k < x.length → ¬ pat <+: (x ++ y).drop k) →
      replaceAll (x ++ y) pat rep = x ++ replaceAll y pat rep := by
  intro x
  induction x with
  | nil => intro y _; simp
  | cons c x' ih =>
    intro y hocc
    have h0 : ¬ pat <+: c :: (x' ++ y) := by
      have := hocc 0 (by simp)
      simpa using this
    have hk' : ∀ k, k < x'.length → ¬ pat <+: (x' ++ y).drop k := by
      intro k hk
      have := hocc (k + 1) (by simp; omega)
      simpa using this
    rw [List.cons_append, replaceAll_cons_no rep h0, ih y hk']
    simp

/-- Splitting a prefix of an append. -/
theorem pre_split {p x y : List Char} (h : p <+: x ++ y) :
    p <+: x ∨ ∃ b, p = x ++ b ∧ b <+: y := by
  induction x generalizing p with
  | nil => exact Or.inr ⟨p, by simpa using h⟩
  | cons c x' ih =>
    cases p with
    | nil => exact Or.inl List.nil_prefix
    | cons d p' =>
      rw [List.cons_append, List.cons_prefix_cons] at h
      obtain ⟨rfl, h'⟩ := h
      rcases ih h' with h1 | ⟨b, rfl, hb⟩
      · exact Or.inl (List.cons_prefix_cons.2 ⟨rfl, h1⟩)
      · exact Or.inr ⟨b, by simp, hb⟩

/-- Splitting an occurrence inside an append: inside the left part, inside
the right part, or straddling the boundary. -/
theorem inf_split {p x y : List Char} (h : p <:+: x ++ y) :
    p <:+: x ∨ p <:+: y ∨
      ∃ a b, p = a ++ b ∧ a ≠ [] ∧ b ≠ [] ∧ a <:+ x ∧ b <+: y := by
  induction x generalizing p with
  | nil => exact Or.inr (Or.inl (by simpa using h))
  | cons c x' ih =>
    obtain ⟨s, t, hst⟩ := h
    cases s with
    | nil =>
      simp only [List.nil_append] at hst
      have hp : p <+: (c :: x') ++ y := ⟨t, by simpa using hst⟩
      rcases pre_split hp with h1 | ⟨b, rfl, hb⟩
      · exact Or.inl h1.isInfix
      · by_cases hbnil : b = []
        · subst hbnil
          exact Or.inl (by simp)
        · exact Or.inr (Or.inr ⟨c :: x', b, rfl, by simp, hbnil,
            List.suffix_refl _, hb⟩)
    | cons a s' =>
      simp only [List.cons_append] at hst
      injection hst with h1 h2
      have h' : p <:+: x' ++ y := ⟨s', t, by simpa using h2⟩
      rcases ih h' with h1 | h1 | ⟨a', b, rfl, ha, hb, hsuf, hpre⟩
      · exact Or.inl (h1.trans ⟨[c], [], by simp⟩)
      · exact Or.inr (Or.inl h1)
      · exact Or.inr (Or.inr ⟨a', b, rfl, ha, hb, hsuf.trans ⟨[c], rfl⟩, hpre⟩)

/-- Comparing a prefix with the first two characters of a list. -/
theorem pre_two {a b : Char} {r p : List Char} (h : p <+: a :: b :: r) :
    p = [] ∨ p = [a] ∨ ∃ p', p = a :: b :: p' ∧ p' <+: r := by
  cases p with
  | nil => exact Or.inl rfl
  | cons c p' =>
    rw [List.cons_prefix_cons] at h
    obtain ⟨rfl, h'⟩ := h
    cases p' with
    | nil => exact Or.inr (Or.inl rfl)
    | cons d p'' =>
      rw [List.cons_prefix_cons] at h'
      obtain ⟨rfl, h''⟩ := h'
      exact Or.inr (Or.inr ⟨p'', rfl, h''⟩)

/-! ### Shape facts about placeholder tokens -/

theorem tok_body_no_lt (kb : Bool) (n : ℕ) :
    '<' ∉ kindChars kb ++ natDec n ++ ['>', '>'] := by
  intro h
  rcases List.mem_append.1 h with h | h
  · rcases List.mem_append.1 h with h | h
    · cases kb <;> simp [kindChars] at h
    · exact absurd (natDec_digits n _ h) (by decide)
  · simp at h

theorem tok_ne_nil (kb : Bool) (n : ℕ) : tokOf kb n ≠ [] := by
  simp [tokOf]

theorem tok_drop_one (kb : Bool) (n : ℕ) :
    (tokOf kb n).drop 1 = '<' :: (kindChars kb ++ natDec n ++ ['>', '>']) := rfl

theorem tok_drop_lt_le_one {kb : Bool} {n : ℕ} {j : ℕ} {r : List Char}
    (h : (tokOf kb n).drop j = '<' :: r) : j ≤ 1 := by
  by_contra hj
  obtain ⟨j', rfl⟩ : ∃ j', j = j' + 2 := ⟨j - 2, by omega⟩
  have hd : (tokOf kb n).drop (j' + 2) =
      (kindChars kb ++ natDec n ++ ['>', '>']).drop j' := rfl
  rw [hd] at h
  have : '<' ∈ kindChars kb ++ natDec n ++ ['>', '>'] :=
    List.drop_subset _ _ (h ▸ List.mem_cons_self _ _)
  exact tok_body_no_lt kb n this

theorem dig_pre : ∀ (D D' : List Char), (∀ c ∈ D, c.isDigit) →
    (∀ c ∈ D', c.isDigit) → D ++ ['>', '>'] <+: D' ++ ['>', '>'] → D = D' := by
  intro D
  induction D with
  | nil =>
    intro D' _ hD' h
    cases D' with
    | nil => rfl
    | cons d D'' =>
      simp only [List.nil_append, List.cons_append, List.cons_prefix_cons] at h
      have hd := hD' d (by simp)
      rw [← h.1] at hd
      exact absurd hd (by decide)
  | cons c D₂ ih =>
    intro D' hD hD' h
    cases D' with
    | nil =>
      simp only [List.cons_append, List.nil_append, List.cons_prefix_cons] at h
      have hc := hD c (by simp)
      rw [h.1] at hc
      exact absurd hc (by decide)
    | cons d D₂' =>
      simp only [List.cons_append, List.cons_prefix_cons] at h
      obtain ⟨rfl, h'⟩ := h
      rw [ih D₂' (fun x hx => hD x (by simp [hx]))
        (fun x hx => hD' x (by simp [hx])) h']

/-- A token that is a prefix of a token is that token. -/
theorem tok_pre_eq {kb kb' : Bool} {n n' : ℕ}
    (h : tokOf kb n <+: tokOf kb' n') : kb = kb' ∧ n = n' := by
  unfold tokOf at h
  rw [List.cons_prefix_cons] at h
  rw [List.cons_prefix_cons] at h
  replace h := h.2.2
  have hkb : kb = kb' := by
    by_contra hne
    cases kb <;> cases kb' <;> simp at hne <;>
      simp [kindChars, List.cons_prefix_cons] at h
  subst hkb
  refine ⟨rfl, ?_⟩
  have h2 : natDec n ++ ['>', '>'] <+: natDec n' ++ ['>', '>'] := by
    cases kb <;> simpa [kindChars, List.cons_prefix_cons, List.append_assoc] using h
  exact natDec_injective (dig_pre _ _ (natDec_digits n) (natDec_digits n') h2)

/-- A token inside a token is that token (tokens are mutually non-infix). -/
theorem tok_inf_eq {kb kb' : Bool} {n n' : ℕ}
    (h : tokOf kb n <:+: tokOf kb' n') : kb = kb' ∧ n = n' := by
  obtain ⟨s, t, hst⟩ := h
  cases s with
  | nil =>
    exact tok_pre_eq ⟨t, by simpa using hst⟩
  | cons a s' =>
    exfalso
    have hst' : a :: (s' ++ tokOf kb n ++ t) = tokOf kb' n' := by
      simpa [List.append_assoc] using hst
    unfold tokOf at hst'
    injection hst' with h1 h2
    cases s' with
    | nil =>
      simp only [List.nil_append] at h2
      have h3 : tokOf kb n ++ t = '<' :: (kindChars kb' ++ natDec n' ++ ['>', '>']) := h2
      unfold tokOf at h3
      injection h3 with h4 h5
      have : '<' ∈ kindChars kb' ++ natDec n' ++ ['>', '>'] := by
        rw [← h5]; simp
      exact tok_body_no_lt kb' n' this
    | cons b s'' =>
      simp only [List.cons_append] at h2
      injection h2 with h4 h5
      exact tok_body_no_lt kb' n' (by rw [← h5]; simp)

/-- A proper tail of a token is never a prefix of a token-headed list. -/
theorem tok_tail_not_pre {tb : Bool} {tn : ℕ} {j : ℕ} (hj1 : 1 ≤ j)
    (hjlen : j < (tokOf tb tn).length) {kb' : Bool} {n' : ℕ} {rest : List Char}
    (h : (tokOf tb tn).drop j <+: tokOf kb' n' ++ rest) : False := by
  have hne : (tokOf tb tn).drop j ≠ [] := by
    intro hx
    have := congrArg List.length hx
    simp only [List.length_drop, List.length_nil] at this
    omega
  obtain ⟨c, b2, hcb⟩ : ∃ c b2, (tokOf tb tn).drop j = c :: b2 := by
    cases hx : (tokOf tb tn).drop j with
    | nil => exact absurd hx hne
    | cons c b2 => exact ⟨c, b2, rfl⟩
  rw [hcb] at h
  have hu : tokOf kb' n' ++ rest =
      '<' :: '<' :: (kindChars kb' ++ natDec n' ++ ['>', '>'] ++ rest) := by
    unfold tokOf; simp
  rw [hu, List.cons_prefix_cons] at h
  obtain ⟨rfl, h2⟩ := h
  have hj : j ≤ 1 := tok_drop_lt_le_one hcb
  have hj' : j = 1 := by omega
  subst hj'
  rw [tok_drop_one] at hcb
  injection hcb with h3 h4
  rw [← h4] at h2
  cases tb <;>
    simp [kindChars, List.cons_prefix_cons] at h2

/-- In a `Rep`-shaped string whose token slots all differ from the token `t`
and whose fully-unmasked form does not contain `t`, the token `t` does not
occur at all. -/
theorem no_tok_occ {tb : Bool} {tn : ℕ} {orig masked : List Char}
    {map : List (List Char × List Char)}
    (hrep : Rep orig map masked)
    (hmap : ∀ p ∈ map, TokShape p.1 ∧ p.1 ≠ tokOf tb tn)
    (hno : ¬ tokOf tb tn <:+: orig) : ¬ tokOf tb tn <:+: masked := by
  induction hrep with
  | nil s => exact hno
  | cons g v orig' u masked' map' hrep' ih =>
    obtain ⟨⟨kb', n', rfl⟩, hune⟩ := hmap (u, v) (List.mem_cons_self _ _)
    have hno' : ¬ tokOf tb tn <:+: orig' := fun hi =>
      hno (hi.trans ⟨g ++ v, [], by simp⟩)
    have hnog : ¬ tokOf tb tn <:+: g := fun hi =>
      hno (hi.trans ⟨[], v ++ orig', by simp⟩)
    have ihm : ¬ tokOf tb tn <:+: masked' :=
      ih (fun p hp => hmap p (List.mem_cons_of_mem _ hp)) hno'
    intro h
    rw [List.append_assoc] at h
    rcases inf_split h with hg | hrest | ⟨a, b, htab, hanil, hbnil, hsuf, hpre⟩
    · exact hnog hg
    · rcases inf_split hrest with hu | hm | ⟨a, b, htab, hanil, hbnil, hsuf, hpre⟩
      · obtain ⟨h1, h2⟩ := tok_inf_eq hu
        exact hune (by rw [h1, h2])
      · exact ihm hm
      · -- straddling from inside the token slot `u` into `masked'`
        obtain ⟨pre, hpre_u⟩ := hsuf
        have ha_drop : (tokOf kb' n').drop pre.length = a := by
          rw [← hpre_u]; exact List.drop_left pre a
        obtain ⟨c, a2, hca⟩ : ∃ c a2, a = c :: a2 := by
          cases a with
          | nil => exact absurd rfl hanil
          | cons c a2 => exact ⟨c, a2, rfl⟩
        have hc : c = '<' := by
          have : tokOf tb tn = c :: (a2 ++ b) := by rw [htab, hca]; simp
          unfold tokOf at this
          injection this with h1 _
          exact h1.symm
        subst hc
        have hple : pre.length ≤ 1 := tok_drop_lt_le_one (hca ▸ ha_drop)
        rcases Nat.le_one_iff_eq_zero_or_eq_one.1 hple with hp0 | hp1
        · -- `a` is the whole token slot: the slot is a prefix of `t`
          have ha_u : a = tokOf kb' n' := by
            rw [← ha_drop, hp0, List.drop_zero]
          have : tokOf kb' n' <+: tokOf tb tn := ⟨b, by rw [← ha_u, ← htab]⟩
          obtain ⟨h1, h2⟩ := tok_pre_eq this
          exact hune (by rw [h1, h2])
        · -- `a` is the token slot minus its first character
          have hstep : (tokOf kb' n').drop 1 <+: tokOf tb tn ++ [] := by
            rw [List.append_nil]
            refine ⟨b, ?_⟩
            rw [hp1] at ha_drop
            rw [ha_drop, ← htab]
          have hlt : 1 < (tokOf kb' n').length := by
            unfold tokOf
            simp only [List.length_cons]
            omega
          exact tok_tail_not_pre (le_refl 1) hlt hstep
    · -- straddling from the literal `g` into the token slot
      have hb_drop : (tokOf tb tn).drop a.length = b := by
        rw [htab]; exact List.drop_left a b
      have hlen : a.length < (tokOf tb tn).length := by
        have := congrArg List.length htab
        simp only [List.length_append] at this
        have hb1 : 1 ≤ b.length := by
          cases b with
          | nil => exact absurd rfl hbnil
          | cons _ _ => simp
        omega
      have ha1 : 1 ≤ a.length := by
        cases a with
        | nil => exact absurd rfl hanil
        | cons _ _ => simp
      exact tok_tail_not_pre ha1 hlen (hb_drop ▸ hpre)

/-- No occurrence of the token `t` starts inside a literal block `g` that
does not contain `t` and is followed by a token slot. -/
theorem no_occ_start_lit {tb : Bool} {tn : ℕ} {kb' : Bool} {n' : ℕ}
    {g y : List Char} (hnog : ¬ tokOf tb tn <:+: g) :
    ∀ k, k < g.length → ¬ tokOf tb tn <+: (g ++ (tokOf kb' n' ++ y)).drop k := by
  intro k hk hpre
  rw [List.drop_append_of_le_length (le_of_lt hk)] at hpre
  rcases pre_split hpre with h1 | ⟨b, htb, hb⟩
  · exact hnog (h1.isInfix.trans (List.drop_suffix k g).isInfix)
  · by_cases hbnil : b = []
    · subst hbnil
      rw [List.append_nil] at htb
      exact hnog (htb ▸ (List.drop_suffix k g).isInfix)
    · have hgk : (g.drop k).length = g.length - k := List.length_drop _ _
      have hj1 : 1 ≤ (g.drop k).length := by omega
      have hb_drop : (tokOf tb tn).drop (g.drop k).length = b := by
        rw [htb]; exact List.drop_left _ b
      have hjlen : (g.drop k).length < (tokOf tb tn).length := by
        have := congrArg List.length htb
        simp only [List.length_append] at this
        have hb1 : 1 ≤ b.length := by
          cases b with
          | nil => exact absurd rfl hbnil
          | cons _ _ => simp
        omega
      exact tok_tail_not_pre hj1 hjlen (hb_drop ▸ hb)

/-- No occurrence of the token `t` starts strictly inside a different
token slot. -/
theorem no_occ_start_tok {tb : Bool} {tn : ℕ} {kb' : Bool} {n' : ℕ}
    {y : List Char} (hne : tokOf kb' n' ≠ tokOf tb tn) :
    ∀ k, k < (tokOf kb' n').length →
      ¬ tokOf tb tn <+: (tokOf kb' n').drop k ++ y := by
  intro k hk hpre
  rcases pre_split hpre with h1 | ⟨b, htb, hb⟩
  · obtain ⟨h1', h2'⟩ :=
      tok_inf_eq (h1.isInfix.trans (List.drop_suffix k (tokOf kb' n')).isInfix)
    exact hne (by rw [h1', h2'])
  · by_cases hbnil : b = []
    · subst hbnil
      rw [List.append_nil] at htb
      obtain ⟨h1', h2'⟩ :=
        tok_inf_eq (htb ▸ (List.drop_suffix k (tokOf kb' n')).isInfix)
      exact hne (by rw [h1', h2'])
    · rcases Nat.eq_zero_or_pos k with hk0 | hk1
      · subst hk0
        rw [List.drop_zero] at htb
        obtain ⟨h1', h2'⟩ := tok_pre_eq ⟨b, htb.symm⟩
        exact hne (by rw [h1', h2'])
      · have hstep : (tokOf kb' n').drop k <+: tokOf tb tn ++ [] := by
          rw [List.append_nil]
          exact ⟨b, htb.symm⟩
        exact tok_tail_not_pre hk1 hk hstep

theorem Rep.prepend {orig masked : List Char} {map : List (List Char × List Char)}
    (x : List Char) (h : Rep orig map masked) :
    Rep (x ++ orig) map (x ++ masked) := by
  cases h with
  | nil => exact Rep.nil _
  | cons g v o' tok m' map' h' =>
    have h2 := Rep.cons (x ++ g) v o' tok m' map' h'
    simpa [List.append_assoc] using h2

/-- Replacing one still-masked token of a `Rep`-shaped string restores
exactly that slot. -/
theorem replace_step {tb : Bool} {tn : ℕ} {v : List Char} :
    ∀ {orig masked : List Char} {map : List (List Char × List Char)},
      Rep orig map masked →
      (∀ p ∈ map, TokShape p.1) →
      (map.map Prod.fst).Nodup →
      (∀ p ∈ map, ¬ p.1 <:+: orig) →
      (tokOf tb tn, v) ∈ map →
      ∃ m₂, replaceAll masked (tokOf tb tn) v = m₂ ∧
        Rep orig (removeTok map (tokOf tb tn)) m₂ := by
  intro orig masked map hrep
  induction hrep with
  | nil => intro _ _ _ hmem; simp at hmem
  | cons g v1 orig' u masked' map' hrep' ih =>
    intro hsh hnd hno hmem
    obtain ⟨kb', n', rfl⟩ := hsh (u, v1) (List.mem_cons_self _ _)
    have hnot : ¬ tokOf tb tn <:+: g ++ v1 ++ orig' :=
      hno (tokOf tb tn, v) hmem
    have hnog : ¬ tokOf tb tn <:+: g := fun hi =>
      hnot (hi.trans ⟨[], v1 ++ orig', by simp⟩)
    have hno' : ∀ p ∈ map', ¬ p.1 <:+: orig' := by
      intro p hp hi
      exact hno p (List.mem_cons_of_mem _ hp)
        (hi.trans ⟨g ++ v1, [], by simp⟩)
    have hndtail : (map'.map Prod.fst).Nodup := (List.nodup_cons.1 hnd).2
    have hheadnot : tokOf kb' n' ∉ map'.map Prod.fst := (List.nodup_cons.1 hnd).1
    by_cases hcase : tokOf kb' n' = tokOf tb tn
    · -- the head slot is the token being replaced
      have hv : v1 = v := by
        rcases List.mem_cons.1 hmem with h1 | h1
        · exact ((Prod.ext_iff.1 h1).2).symm
        · exfalso
          apply hheadnot
          rw [hcase]
          exact List.mem_map.2 ⟨(tokOf tb tn, v), h1, rfl⟩
      subst hv
      have hmaptail : ∀ p ∈ map', TokShape p.1 ∧ p.1 ≠ tokOf tb tn := by
        intro p hp
        refine ⟨hsh p (List.mem_cons_of_mem _ hp), ?_⟩
        intro hx
        apply hheadnot
        rw [hcase, ← hx]
        exact List.mem_map.2 ⟨p, hp, rfl⟩
      have hnoo' : ¬ tokOf tb tn <:+: orig' := fun hi =>
        hnot (hi.trans ⟨g ++ v1, [], by simp⟩)
      have hnomask : ¬ tokOf tb tn <:+: masked' :=
        no_tok_occ hrep' hmaptail hnoo'
      refine ⟨g ++ v1 ++ masked', ?_, ?_⟩
      · rw [List.append_assoc, hcase]
        rw [replaceAll_skip_block v1 g _
          (fun k hk => no_occ_start_lit hnog k hk)]
        rw [replaceAll_match v1 (tok_ne_nil tb tn) ⟨masked', rfl⟩]
        rw [List.drop_left]
        rw [replaceAll_of_no_occ v1 hnomask]
        simp [List.append_assoc]
      · have herase :
            removeTok ((tokOf kb' n', v1) :: map') (tokOf tb tn) = map' := by
          simp [removeTok, hcase]
        rw [herase]
        have := hrep'.prepend (g ++ v1)
        simpa [List.append_assoc] using this
    · -- the head slot is a different token: skip it entirely
      have hmem' : (tokOf tb tn, v) ∈ map' := by
        rcases List.mem_cons.1 hmem with h1 | h1
        · exact absurd (congrArg Prod.fst h1).symm hcase
        · exact h1
      obtain ⟨m₂, heq, hrep₂⟩ := ih
        (fun p hp => hsh p (List.mem_cons_of_mem _ hp)) hndtail hno' hmem'
      refine ⟨g ++ tokOf kb' n' ++ m₂, ?_, ?_⟩
      · have hocc : ∀ k, k < (g ++ tokOf kb' n').length →
            ¬ tokOf tb tn <+: ((g ++ tokOf kb' n') ++ masked').drop k := by
          intro k hk
          rw [List.append_assoc]
          rcases Nat.lt_or_ge k g.length with hkg | hkg
          · exact no_occ_start_lit hnog k hkg
          · obtain ⟨k', rfl⟩ : ∃ k', k = g.length + k' := ⟨k - g.length, by omega⟩
            rw [List.drop_append]
            simp only [List.length_append] at hk
            have hk' : k' < (tokOf kb' n').length := by omega
            rw [List.drop_append_of_le_length (le_of_lt hk')]
            exact no_occ_start_tok hcase k' hk'
        rw [replaceAll_skip_block v (g ++ tokOf kb' n') masked' hocc, heq]
      · have herase :
            removeTok ((tokOf kb' n', v1) :: map') (tokOf tb tn) =
              (tokOf kb' n', v1) :: removeTok map' (tokOf tb tn) := by
          simp [removeTok, hcase]
        rw [herase]
        exact Rep.cons g v1 orig' (tokOf kb' n') m₂ _ hrep₂

theorem rep_nil_eq {orig masked : List Char} (h : Rep orig [] masked) :
    masked = orig := by
  cases h
  rfl

theorem rep_cons_masked {orig masked t v : List Char}
    {map' : List (List Char × List Char)}
    (h : Rep orig ((t, v) :: map') masked) :
    ∃ g m', masked = g ++ t ++ m' := by
  cases h with
  | cons g v o' tok m' mm hh => exact ⟨g, m', rfl⟩

theorem removeTok_sublist (map : List (List Char × List Char)) (t : List Char) :
    (removeTok map t).Sublist map := by
  induction map with
  | nil => simp [removeTok]
  | cons p rest ih =>
    rw [removeTok]
    by_cases h : p.1 = t
    · rw [if_pos h]
      exact (List.sublist_cons_self p rest)
    · rw [if_neg h]
      exact ih.cons₂ p

/-- When the keys are distinct, removing the entry of a present token is a
permutation inverse of consing it. -/
theorem perm_removeTok {t v : List Char} :
    ∀ {map : List (List Char × List Char)}, (t, v) ∈ map →
      (map.map Prod.fst).Nodup → map.Perm ((t, v) :: removeTok map t) := by
  intro map
  induction map with
  | nil => intro h; simp at h
  | cons p rest ih =>
    intro hmem hnd
    rw [removeTok]
    by_cases h : p.1 = t
    · have hp : p = (t, v) := by
        rcases List.mem_cons.1 hmem with h1 | h1
        · exact h1.symm
        · exfalso
          have : t ∈ rest.map Prod.fst := List.mem_map.2 ⟨(t, v), h1, rfl⟩
          rw [← h] at this
          exact (List.nodup_cons.1 (by simpa using hnd)).1 this
      rw [if_pos h, hp]
    · have hmem' : (t, v) ∈ rest := by
        rcases List.mem_cons.1 hmem with h1 | h1
        · exact absurd (congrArg Prod.fst h1.symm) h
        · exact h1
      rw [if_neg h]
      exact ((ih hmem' (List.nodup_cons.1 (by simpa using hnd)).2).cons p).trans
        (List.Perm.swap (t, v) p _)

/-- Substituting the values of the token map back, in any order, restores
the original text (tokens are mutually non-infix, so the order — in the
code, longest first — does not matter). -/
theorem unmask_perm :
    ∀ (l : List (List Char × List Char)) {orig masked : List Char}
      {map : List (List Char × List Char)},
      Rep orig map masked →
      (∀ p ∈ map, TokShape p.1) →
      (map.map Prod.fst).Nodup →
      (∀ p ∈ map, ¬ p.1 <:+: orig) →
      l.Perm map →
      l.foldl (fun s p => replaceAll s p.1 p.2) masked = orig := by
  intro l
  induction l with
  | nil =>
    intro orig masked map hrep _ _ _ hperm
    have hmap : map = [] := (hperm.symm).eq_nil
    subst hmap
    exact rep_nil_eq hrep
  | cons p l' ih =>
    intro orig masked map hrep hsh hnd hno hperm
    obtain ⟨t, v⟩ := p
    have hmem : (t, v) ∈ map := hperm.mem_iff.1 (List.mem_cons_self _ _)
    obtain ⟨tb, tn, rfl⟩ := hsh (t, v) hmem
    obtain ⟨m₂, heq, hrep₂⟩ := replace_step hrep hsh hnd hno hmem
    have hperm' : l'.Perm (removeTok map (tokOf tb tn)) :=
      (hperm.trans (perm_removeTok hmem hnd)).cons_inv
    have hsl : (removeTok map (tokOf tb tn)).Sublist map := removeTok_sublist _ _
    have hsub : ∀ p ∈ removeTok map (tokOf tb tn), p ∈ map := fun p hp =>
      hsl.subset hp
    rw [List.foldl_cons, heq]
    exact ih hrep₂ (fun p hp => hsh p (hsub p hp))
      ((hsl.map Prod.fst).nodup hnd) (fun p hp => hno p (hsub p hp)) hperm'

/-! ### Structure of the `maskLoop` output -/

theorem drop_decomp {text : List Char} {c s e : ℕ} (hcs : c ≤ s) (hse : s ≤ e)
    (he : e ≤ text.length) :
    text.drop c = (text.drop c).take (s - c) ++ (slice text s e ++ text.drop e) := by
  have h2 : (text.drop c).drop (s - c) = text.drop s := by
    rw [List.drop_drop]
    congr 1
    omega
  have h5 : (text.drop s).drop (e - s) = text.drop e := by
    rw [List.drop_drop]
    congr 1
    omega
  have h4 : slice text s e ++ text.drop e = text.drop s := by
    rw [slice, ← h5]
    exact List.take_append_drop _ _
  rw [h4, ← h2]
  exact (List.take_append_drop _ _).symm

/-- The emitted part of the mask loop is a `Rep` decomposition of the text
from the cursor on. -/
theorem maskLoop_rep (text : List Char) :
    ∀ (spans : List (ℕ × ℕ × List Char × Bool)) (c ut ne : ℕ),
      (∀ sp ∈ spans, sp.1 ≤ sp.2.1 ∧ sp.2.1 ≤ text.length ∧
        sp.2.2.1 = slice text sp.1 sp.2.1) →
      Rep (text.drop c) (maskLoop text spans c ut ne).2
        (maskLoop text spans c ut ne).1 := by
  intro spans
  induction spans with
  | nil => intro c ut ne _; exact Rep.nil _
  | cons sp rest ih =>
    intro c ut ne hval
    obtain ⟨s, e, v, k⟩ := sp
    by_cases hs : s < c
    · rw [maskLoop, if_pos hs]
      exact ih c ut ne (fun q hq => hval q (List.mem_cons_of_mem _ hq))
    · have hc_s : c ≤ s := not_lt.1 hs
      obtain ⟨hse, he, hv⟩ := hval (s, e, v, k) (List.mem_cons_self _ _)
      rw [maskLoop, if_neg hs]
      have ihe := ih e (if k then ut + 1 else ut) (if k then ne else ne + 1)
        (fun q hq => hval q (List.mem_cons_of_mem _ hq))
      have hrep := Rep.cons ((text.drop c).take (s - c)) v (text.drop e)
        (tokOf k (if k then ut else ne)) _ _ ihe
      have hdec := drop_decomp hc_s hse he
      simp only at hv ⊢
      rw [← hv] at hdec
      simp only [List.append_assoc] at hrep ⊢
      rw [← hdec] at hrep
      exact hrep

/-- Every token of the produced token map is a well-shaped placeholder with
a kind counter at least the starting counter. -/
theorem maskLoop_tok (text : List Char) :
    ∀ (spans : List (ℕ × ℕ × List Char × Bool)) (c ut ne : ℕ),
      ∀ p ∈ (maskLoop text spans c ut ne).2,
        ∃ kb i, p.1 = tokOf kb i ∧ (kb = true → ut ≤ i) ∧ (kb = false → ne ≤ i) := by
  intro spans
  induction spans with
  | nil => intro c ut ne p hp; simp [maskLoop] at hp
  | cons sp rest ih =>
    intro c ut ne p hp
    obtain ⟨s, e, v, k⟩ := sp
    by_cases hs : s < c
    · rw [maskLoop, if_pos hs] at hp
      exact ih c ut ne p hp
    · rw [maskLoop, if_neg hs] at hp
      simp only [List.mem_cons] at hp
      rcases hp with hp | hp
      · refine ⟨k, if k then ut else ne, by rw [hp], ?_, ?_⟩ <;>
          (intro hk; subst hk; simp)
      · obtain ⟨kb, i, h1, h2, h3⟩ := ih e _ _ p hp
        refine ⟨kb, i, h1, ?_, ?_⟩
        · intro hk
          have := h2 hk
          subst hk
          cases k <;> simp_all <;> omega
        · intro hk
          have := h3 hk
          subst hk
          cases k <;> simp_all <;> omega

/-- The produced placeholder tokens are pairwise distinct. -/
theorem maskLoop_nodup (text : List Char) :
    ∀ (spans : List (ℕ × ℕ × List Char × Bool)) (c ut ne : ℕ),
      ((maskLoop text spans c ut ne).2.map Prod.fst).Nodup := by
  intro spans
  induction spans with
  | nil => intro c ut ne; simp [maskLoop]
  | cons sp rest ih =>
    intro c ut ne
    obtain ⟨s, e, v, k⟩ := sp
    by_cases hs : s < c
    · rw [maskLoop, if_pos hs]
      exact ih c ut ne
    · rw [maskLoop, if_neg hs]
      simp only [List.map_cons, List.nodup_cons]
      refine ⟨?_, ih e _ _⟩
      intro hmem
      obtain ⟨p, hp, hpe⟩ := List.mem_map.1 hmem
      obtain ⟨kb, i, h1, h2, h3⟩ := maskLoop_tok text rest e _ _ p hp
      rw [h1] at hpe
      obtain ⟨hkb, hi⟩ := tokOf_injective hpe
      subst hkb
      cases kb with
      | true =>
        have h4 := h2 rfl
        simp at h4 hi
        omega
      | false =>
        have h4 := h3 rfl
        simp at h4 hi
        omega

theorem keptSpans_sublist :
    ∀ (spans : List (ℕ × ℕ × List Char × Bool)) (c : ℕ),
      (keptSpans spans c).Sublist spans := by
  intro spans
  induction spans with
  | nil => intro c; simp [keptSpans]
  | cons sp rest ih =>
    intro c
    obtain ⟨s, e, v, k⟩ := sp
    rw [keptSpans]
    by_cases hs : s < c
    · rw [if_pos hs]
      exact (ih c).trans (List.sublist_cons_self _ _)
    · rw [if_neg hs]
      exact (ih e).cons₂ _

theorem keptSpans_mem_start :
    ∀ (spans : List (ℕ × ℕ × List Char × Bool)) (c : ℕ),
      (∀ sp ∈ spans, sp.1 ≤ sp.2.1) →
      ∀ sp' ∈ keptSpans spans c, c ≤ sp'.1 := by
  intro spans
  induction spans with
  | nil => intro c _ sp' h; simp [keptSpans] at h
  | cons sp rest ih =>
    intro c hval sp' h
    obtain ⟨s, e, v, k⟩ := sp
    rw [keptSpans] at h
    by_cases hs : s < c
    · rw [if_pos hs] at h
      exact ih c (fun q hq => hval q (List.mem_cons_of_mem _ hq)) sp' h
    · rw [if_neg hs] at h
      rcases List.mem_cons.1 h with h1 | h1
      · subst h1; exact not_lt.1 hs
      · have h2 := ih e (fun q hq => hval q (List.mem_cons_of_mem _ hq)) sp' h1
        have h3 := hval (s, e, v, k) (List.mem_cons_self _ _)
        simp only at h3
        omega

theorem keptSpans_chain :
    ∀ (spans : List (ℕ × ℕ × List Char × Bool)) (c : ℕ),
      (∀ sp ∈ spans, sp.1 ≤ sp.2.1) →
      List.Chain' (fun a b => a.2.1 ≤ b.1) (keptSpans spans c) := by
  intro spans
  induction spans with
  | nil => intro c _; simp [keptSpans]
  | cons sp rest ih =>
    intro c hval
    obtain ⟨s, e, v, k⟩ := sp
    rw [keptSpans]
    by_cases hs : s < c
    · rw [if_pos hs]
      exact ih c (fun q hq => hval q (List.mem_cons_of_mem _ hq))
    · rw [if_neg hs]
      rw [List.chain'_cons']
      refine ⟨?_, ih e (fun q hq => hval q (List.mem_cons_of_mem _ hq))⟩
      intro b hb
      exact keptSpans_mem_start rest e
        (fun q hq => hval q (List.mem_cons_of_mem _ hq)) b
        (List.mem_of_mem_head? hb)

theorem maskLoop_eq_kept (text : List Char) :
    ∀ (spans : List (ℕ × ℕ × List Char × Bool)) (c ut ne : ℕ),
      maskLoop text spans c ut ne = maskLoop text (keptSpans spans c) c ut ne := by
  intro spans
  induction spans with
  | nil => intro c ut ne; rfl
  | cons sp rest ih =>
    intro c ut ne
    obtain ⟨s, e, v, k⟩ := sp
    rw [keptSpans]
    by_cases hs : s < c
    · rw [if_pos hs, maskLoop, if_pos hs]
      exact ih c ut ne
    · rw [if_neg hs, maskLoop, if_neg hs]
      conv_rhs => rw [maskLoop, if_neg hs]
      rw [← ih e]

theorem maskLoop_vals (text : List Char) :
    ∀ (spans : List (ℕ × ℕ × List Char × Bool)) (c ut ne : ℕ),
      (maskLoop text spans c ut ne).2.map Prod.snd =
        (keptSpans spans c).map (fun sp => sp.2.2.1) := by
  intro spans
  induction spans with
  | nil => intro c ut ne; rfl
  | cons sp rest ih =>
    intro c ut ne
    obtain ⟨s, e, v, k⟩ := sp
    rw [keptSpans]
    by_cases hs : s < c
    · rw [if_pos hs, maskLoop, if_pos hs]
      exact ih c ut ne
    · rw [if_neg hs, maskLoop, if_neg hs]
      simp only [List.map_cons]
      rw [ih e]

/-! ### Facts about `_find_user_term_spans` -/

theorem scanGo_bounds (text term : List Char) (b : Bool) :
    ∀ (f i : ℕ), ∀ m ∈ scanGo text term b f i,
      m.2 = m.1 + term.length ∧ m.2 ≤ text.length := by
  intro f
  induction f with
  | zero => intro i m hm; simp [scanGo] at hm
  | succ f ih =>
    intro i m hm
    rw [scanGo] at hm
    by_cases h1 : i + term.length ≤ text.length
    · rw [if_pos h1] at hm
      by_cases h2 : (matchAt text term i && (!b || boundaryOkAt text term i)) = true
      · rw [if_pos h2] at hm
        rcases List.mem_cons.1 hm with h3 | h3
        · subst h3; exact ⟨rfl, h1⟩
        · exact ih _ m h3
      · rw [if_neg h2] at hm
        exact ih _ m hm
    · rw [if_neg h1] at hm
      simp at hm

theorem addMatches_claimed_mono (text : List Char) :
    ∀ (ms : List (ℕ × ℕ)) (claimed : List ℕ) (i : ℕ),
      i ∈ claimed → i ∈ (addMatches text ms claimed).2 := by
  intro ms
  induction ms with
  | nil => intro claimed i h; exact h
  | cons m rest ih =>
    intro claimed i h
    obtain ⟨s, e⟩ := m
    rw [addMatches]
    by_cases hocc : claimed.any (fun j => decide (s ≤ j) && decide (j < e)) = true
    · rw [if_pos hocc]
      exact ih claimed i h
    · rw [if_neg hocc]
      exact ih _ i (List.mem_append.2 (Or.inl h))

theorem addMatches_spans (text : List Char) :
    ∀ (ms : List (ℕ × ℕ)) (claimed : List ℕ),
      (∀ m ∈ ms, m.1 < m.2) →
      ∀ sp ∈ (addMatches text ms claimed).1,
        (∃ m ∈ ms, sp = (m.1, m.2, slice text m.1 m.2)) ∧
        sp.1 < sp.2.1 ∧
        (∀ i, sp.1 ≤ i → i < sp.2.1 →
          i ∉ claimed ∧ i ∈ (addMatches text ms claimed).2) := by
  intro ms
  induction ms with
  | nil => intro claimed _ sp hsp; simp [addMatches] at hsp
  | cons m rest ih =>
    intro claimed hms sp hsp
    obtain ⟨s, e⟩ := m
    have hse : s < e := hms (s, e) (List.mem_cons_self _ _)
    rw [addMatches] at hsp ⊢
    by_cases hocc : claimed.any (fun j => decide (s ≤ j) && decide (j < e)) = true
    · rw [if_pos hocc] at hsp ⊢
      obtain ⟨hex, hlt, hpos⟩ := ih claimed
        (fun q hq => hms q (List.mem_cons_of_mem _ hq)) sp hsp
      exact ⟨⟨hex.choose, List.mem_cons_of_mem _ hex.choose_spec.1,
        hex.choose_spec.2⟩, hlt, hpos⟩
    · rw [if_neg hocc] at hsp ⊢
      have hnotin : ∀ i, s ≤ i → i < e → i ∉ claimed := by
        intro i h1 h2 hmem
        apply hocc
        exact List.any_eq_true.2 ⟨i, hmem, by simp [h1, h2]⟩
      rcases List.mem_cons.1 hsp with h3 | h3
      · subst h3
        refine ⟨⟨(s, e), List.mem_cons_self _ _, rfl⟩, hse, ?_⟩
        intro i h1 h2
        simp only at h1 h2
        refine ⟨hnotin i h1 h2, ?_⟩
        apply addMatches_claimed_mono
        apply List.mem_append.2 (Or.inr ?_)
        rw [List.mem_range'_1]
        omega
      · obtain ⟨hex, hlt, hpos⟩ := ih _
          (fun q hq => hms q (List.mem_cons_of_mem _ hq)) sp h3
        refine ⟨⟨hex.choose, List.mem_cons_of_mem _ hex.choose_spec.1,
          hex.choose_spec.2⟩, hlt, ?_⟩
        intro i h1 h2
        obtain ⟨hni, hin⟩ := hpos i h1 h2
        exact ⟨fun hmem => hni (List.mem_append.2 (Or.inl hmem)), hin⟩

theorem spanDisj_symm : ∀ {a b}, spanDisj a b → spanDisj b a := by
  intro a b h
  rcases h with h | h
  · exact Or.inr h
  · exact Or.inl h

theorem addMatches_pairwise (text : List Char) :
    ∀ (ms : List (ℕ × ℕ)) (claimed : List ℕ),
      (∀ m ∈ ms, m.1 < m.2) →
      List.Pairwise spanDisj (addMatches text ms claimed).1 := by
  intro ms
  induction ms with
  | nil => intro claimed _; simp [addMatches]
  | cons m rest ih =>
    intro claimed hms
    obtain ⟨s, e⟩ := m
    have hse : s < e := hms (s, e) (List.mem_cons_self _ _)
    rw [addMatches]
    by_cases hocc : claimed.any (fun j => decide (s ≤ j) && decide (j < e)) = true
    · rw [if_pos hocc]
      exact ih claimed (fun q hq => hms q (List.mem_cons_of_mem _ hq))
    · rw [if_neg hocc]
      rw [List.pairwise_cons]
      refine ⟨?_, ih _ (fun q hq => hms q (List.mem_cons_of_mem _ hq))⟩
      intro sp' hsp'
      obtain ⟨hex, hlt, hpos⟩ := addMatches_spans text rest _
        (fun q hq => hms q (List.mem_cons_of_mem _ hq)) sp' hsp'
      by_contra hdisj
      rw [spanDisj] at hdisj
      push_neg at hdisj
      simp only at hdisj
      obtain ⟨h1, h2⟩ := hdisj
      have hmax1 : max s sp'.1 < sp'.2.1 := max_lt h2 hlt
      have hmax2 : max s sp'.1 < e := max_lt hse h1
      have hmax3 : s ≤ max s sp'.1 := le_max_left _ _
      obtain ⟨hni, _⟩ := hpos (max s sp'.1) (le_max_right _ _) hmax1
      apply hni
      apply List.mem_append.2 (Or.inr ?_)
      rw [List.mem_range'_1]
      exact ⟨hmax3, by omega⟩

theorem scanMatches_valid (text term : List Char) (hterm : term ≠ []) (b : Bool) :
    ∀ m ∈ scanMatches text term b, m.1 < m.2 ∧ m.2 ≤ text.length := by
  intro m hm
  have h := scanGo_bounds text term b (text.length + 1) 0 m hm
  have hlen : 1 ≤ term.length := by
    cases term with
    | nil => exact absurd rfl hterm
    | cons _ _ => simp
  exact ⟨by omega, h.2⟩

theorem termLoop_valid (text : List Char) :
    ∀ (terms : List (List Char)) (claimed : List ℕ),
      (∀ t ∈ terms, t ≠ []) →
      ∀ sp ∈ termLoop text terms claimed,
        sp.1 < sp.2.1 ∧ sp.2.1 ≤ text.length ∧
        sp.2.2 = slice text sp.1 sp.2.1 ∧
        (∀ i, sp.1 ≤ i → i < sp.2.1 → i ∉ claimed) := by
  intro terms
  induction terms with
  | nil => intro claimed _ sp hsp; simp [termLoop] at hsp
  | cons term rest ih =>
    intro claimed hterms sp hsp
    rw [termLoop] at hsp
    have hterm : term ≠ [] := hterms term (List.mem_cons_self _ _)
    have hms : ∀ m ∈ (if (scanMatches text term true).isEmpty then
        scanMatches text term false else scanMatches text term true),
        m.1 < m.2 ∧ m.2 ≤ text.length := by
      intro m hm
      by_cases hempty : (scanMatches text term true).isEmpty
      · rw [if_pos hempty] at hm
        exact scanMatches_valid text term hterm false m hm
      · rw [if_neg hempty] at hm
        exact scanMatches_valid text term hterm true m hm
    rcases List.mem_append.1 hsp with h1 | h1
    · obtain ⟨hex, hlt, hpos⟩ := addMatches_spans text _ claimed
        (fun q hq => (hms q hq).1) sp h1
      obtain ⟨m, hmem, rfl⟩ := hex
      refine ⟨hlt, (hms m hmem).2, rfl, ?_⟩
      intro i hi1 hi2
      exact (hpos i hi1 hi2).1
    · obtain ⟨ha, hb, hc, hd⟩ := ih _
        (fun t ht => hterms t (List.mem_cons_of_mem _ ht)) sp h1
      refine ⟨ha, hb, hc, ?_⟩
      intro i hi1 hi2 hmem
      exact hd i hi1 hi2 (addMatches_claimed_mono text _ claimed i hmem)

theorem termLoop_pairwise (text : List Char) :
    ∀ (terms : List (List Char)) (claimed : List ℕ),
      (∀ t ∈ terms, t ≠ []) →
      List.Pairwise spanDisj (termLoop text terms claimed) := by
  intro terms
  induction terms with
  | nil => intro claimed _; simp [termLoop]
  | cons term rest ih =>
    intro claimed hterms
    rw [termLoop]
    have hterm : term ≠ [] := hterms term (List.mem_cons_self _ _)
    have hms : ∀ m ∈ (if (scanMatches text term true).isEmpty then
        scanMatches text term false else scanMatches text term true),
        m.1 < m.2 ∧ m.2 ≤ text.length := by
      intro m hm
      by_cases hempty : (scanMatches text term true).isEmpty
      · rw [if_pos hempty] at hm
        exact scanMatches_valid text term hterm false m hm
      · rw [if_neg hempty] at hm
        exact scanMatches_valid text term hterm true m hm
    rw [List.pairwise_append]
    refine ⟨addMatches_pairwise text _ claimed (fun q hq => (hms q hq).1),
      ih _ (fun t ht => hterms t (List.mem_cons_of_mem _ ht)), ?_⟩
    intro sp h1 sp' h1'
    obtain ⟨hex, hlt, hpos⟩ := addMatches_spans text _ claimed
      (fun q hq => (hms q hq).1) sp h1
    obtain ⟨ha, hb, hc, hd⟩ := termLoop_valid text rest _
      (fun t ht => hterms t (List.mem_cons_of_mem _ ht)) sp' h1'
    by_contra hdisj
    rw [spanDisj] at hdisj
    push_neg at hdisj
    obtain ⟨hx1, hx2⟩ := hdisj
    have hmax1 : max sp.1 sp'.1 < sp.2.1 := max_lt hlt hx1
    have hmax2 : max sp.1 sp'.1 < sp'.2.1 := max_lt hx2 ha
    have hin : max sp.1 sp'.1 ∈ (addMatches text (if (scanMatches text term true).isEmpty then
        scanMatches text term false else scanMatches text term true) claimed).2 :=
      (hpos _ (le_max_left _ _) hmax1).2
    exact hd _ (le_max_right _ _) hmax2 hin

theorem ddGo_subset {α : Type} [BEq α] :
    ∀ (l seen : List α), ∀ x ∈ ddGo seen l, x ∈ l := by
  intro l
  induction l with
  | nil => intro seen x hx; simp [ddGo] at hx
  | cons a l' ih =>
    intro seen x hx
    rw [ddGo] at hx
    by_cases h : seen.contains a = true
    · rw [if_pos h] at hx
      exact List.mem_cons_of_mem _ (ih seen x hx)
    · rw [if_neg h] at hx
      rcases List.mem_cons.1 hx with h1 | h1
      · subst h1; exact List.mem_cons_self _ _
      · exact List.mem_cons_of_mem _ (ih _ x h1)

theorem sorted_terms_ne_nil (terms : List (List Char)) :
    ∀ t ∈ sortTermsDesc (ddGo [] (terms.filter (fun t => !t.isEmpty))), t ≠ [] := by
  intro t ht
  rw [sortTermsDesc, List.mem_insertionSort] at ht
  have h1 := ddGo_subset _ [] t ht
  have h2 := List.of_mem_filter h1
  simp at h2
  intro hx
  rw [hx] at h2
  simp at h2

theorem findUserTermSpans_valid (text : List Char) (terms : List (List Char)) :
    ∀ sp ∈ findUserTermSpans text terms,
      sp.1 < sp.2.1 ∧ sp.2.1 ≤ text.length ∧
      sp.2.2 = slice text sp.1 sp.2.1 := by
  intro sp hsp
  rw [findUserTermSpans] at hsp
  by_cases h : (terms.isEmpty || text.isEmpty) = true
  · rw [if_pos h] at hsp
    simp at hsp
  · rw [if_neg h] at hsp
    rw [List.mem_insertionSort] at hsp
    obtain ⟨ha, hb, hc, _⟩ := termLoop_valid text _ []
      (sorted_terms_ne_nil terms) sp hsp
    exact ⟨ha, hb, hc⟩

/-- `UserTerm` spans are pairwise disjoint (the `occupied` array). -/
theorem findUserTermSpans_pairwise (text : List Char) (terms : List (List Char)) :
    List.Pairwise spanDisj (findUserTermSpans text terms) := by
  rw [findUserTermSpans]
  by_cases h : (terms.isEmpty || text.isEmpty) = true
  · rw [if_pos h]
    simp
  · rw [if_neg h]
    have hperm := List.perm_insertionSort
      (fun a b : ℕ × ℕ × List Char => a.1 ≤ b.1)
      (termLoop text (sortTermsDesc (ddGo [] (terms.filter (fun t => !t.isEmpty)))) [])
    exact (hperm.pairwise_iff (fun h => spanDisj_symm h)).2
      (termLoop_pairwise text _ [] (sorted_terms_ne_nil terms))

/-! ### Structure of `_mask_text` output and the round-trip law -/

theorem maskText_rep (text : List Char) (terms : List (List Char))
    (spacy : List (ℕ × ℕ × List Char)) (hspacy : spacyValid text spacy) :
    Rep text (maskText text terms spacy).2 (maskText text terms spacy).1 ∧
    (∀ p ∈ (maskText text terms spacy).2, TokShape p.1) ∧
    ((maskText text terms spacy).2.map Prod.fst).Nodup := by
  rw [maskText]
  by_cases h1 : text.isEmpty = true
  · rw [if_pos h1]
    exact ⟨Rep.nil _, by simp, by simp⟩
  · rw [if_neg h1]
    simp only
    by_cases h2 : (combinedSpans (findUserTermSpans text terms)
        (filterSpacySpans (findUserTermSpans text terms) spacy)).isEmpty = true
    · rw [if_pos h2]
      exact ⟨Rep.nil _, by simp, by simp⟩
    · rw [if_neg h2]
      have hval : ∀ sp ∈ List.insertionSort
          (fun a b : ℕ × ℕ × List Char × Bool => a.1 ≤ b.1)
          (combinedSpans (findUserTermSpans text terms)
            (filterSpacySpans (findUserTermSpans text terms) spacy)),
          sp.1 ≤ sp.2.1 ∧ sp.2.1 ≤ text.length ∧
          sp.2.2.1 = slice text sp.1 sp.2.1 := by
        intro sp hsp
        rw [List.mem_insertionSort, combinedSpans, List.mem_append] at hsp
        rcases hsp with hsp | hsp
        · obtain ⟨q, hq, rfl⟩ := List.mem_map.1 hsp
          obtain ⟨ha, hb, hc⟩ := findUserTermSpans_valid text terms q hq
          exact ⟨le_of_lt ha, hb, hc⟩
        · obtain ⟨q, hq, rfl⟩ := List.mem_map.1 hsp
          have hq2 : q ∈ spacy := List.mem_of_mem_filter hq
          obtain ⟨ha, hb, hc⟩ := hspacy q hq2
          exact ⟨le_of_lt ha, hb, hc⟩
      refine ⟨?_, ?_, maskLoop_nodup text _ 0 0 0⟩
      · have := maskLoop_rep text _ 0 0 0 hval
        rwa [List.drop_zero] at this
      · intro p hp
        obtain ⟨kb, i, hp1, -, -⟩ := maskLoop_tok text _ 0 0 0 p hp
        exact ⟨kb, i, hp1⟩

/-- Claim C1, amended: the round-trip law holds for every text in which no
placeholder token of the produced token map already occurs as a substring
(and any detector output satisfying the detector's guarantees). -/
theorem mask_unmask_roundtrip (text : List Char) (terms : List (List Char))
    (spacy : List (ℕ × ℕ × List Char)) (hspacy : spacyValid text spacy)
    (hclean : ∀ p ∈ (maskText text terms spacy).2, ¬ p.1 <:+: text) :
    unmaskText (maskText text terms spacy).1 (maskText text terms spacy).2 =
      text := by
  obtain ⟨hrep, hsh, hnd⟩ := maskText_rep text terms spacy hspacy
  rw [unmaskText]
  by_cases h1 : ((maskText text terms spacy).2.isEmpty ||
      (maskText text terms spacy).1.isEmpty) = true
  · rw [if_pos h1]
    simp only [Bool.or_eq_true] at h1
    rcases h1 with h2 | h2
    · have htm : (maskText text terms spacy).2 = [] := List.isEmpty_iff.1 h2
      rw [htm] at hrep
      exact rep_nil_eq hrep
    · have hm : (maskText text terms spacy).1 = [] := List.isEmpty_iff.1 h2
      rw [hm] at hrep ⊢
      cases htm : (maskText text terms spacy).2 with
      | nil =>
        rw [htm] at hrep
        exact (rep_nil_eq hrep).symm ▸ rfl
      | cons p map' =>
        exfalso
        rw [htm] at hrep
        obtain ⟨t, v⟩ := p
        obtain ⟨g, m', hgm⟩ := rep_cons_masked hrep
        obtain ⟨kb, i, hshape⟩ := hsh (t, v) (by rw [htm]; exact List.mem_cons_self _ _)
        have h3 : g ++ t ++ m' = [] := hgm.symm
        simp only [List.append_eq_nil] at h3
        exact tok_ne_nil kb i (hshape ▸ h3.1.2)
  · rw [if_neg h1]
    exact unmask_perm _ hrep hsh hnd hclean
      (List.perm_insertionSort _ _)

/-- Claim C1, counterexample to the claim as stated: a text already
containing the placeholder-shaped substring `<<UT0>>` outside any protected
span is corrupted by the round trip (`"<<UT0>> Apple"` with retain term
`"Apple"` unmasks to `"Apple Apple"`). -/
theorem roundtrip_counterexample :
    unmaskText (maskText ("<<UT0>> Apple".toList) ["Apple".toList] []).1
        (maskText ("<<UT0>> Apple".toList) ["Apple".toList] []).2 =
      "Apple Apple".toList ∧
    unmaskText (maskText ("<<UT0>> Apple".toList) ["Apple".toList] []).1
        (maskText ("<<UT0>> Apple".toList) ["Apple".toList] []).2 ≠
      "<<UT0>> Apple".toList := by
  constructor
  · decide
  · decide

theorem mask_unmask_roundtrip_witness :
    unmaskText (maskText ("I love Paris".toList) ["Paris".toList] []).1
        (maskText ("I love Paris".toList) ["Paris".toList] []).2 =
      "I love Paris".toList :=
  mask_unmask_roundtrip ("I love Paris".toList) ["Paris".toList] []
    (fun sp hsp => by simp at hsp) (by decide)

/-- Claim C10: `_mask_text`'s emission loop is total on any combined span
list, even with overlapping entity spans: spans starting before the cursor
are silently skipped (the loop equals the loop on the `keptSpans`
sublist), the kept spans are non-overlapping in emission order, the masked
output is the text with exactly the kept spans replaced by their tokens
(`Rep` — every literal character outside the kept spans appears exactly
once, in order), each token is paired in the map with exactly its own
span's text, and the emitted tokens are pairwise distinct. -/
theorem maskLoop_total_structure (text : List Char)
    (spans : List (ℕ × ℕ × List Char × Bool))
    (hval : ∀ sp ∈ spans, sp.1 ≤ sp.2.1 ∧ sp.2.1 ≤ text.length ∧
      sp.2.2.1 = slice text sp.1 sp.2.1) :
    (keptSpans spans 0).Sublist spans ∧
    List.Chain' (fun a b => a.2.1 ≤ b.1) (keptSpans spans 0) ∧
    maskLoop text spans 0 0 0 = maskLoop text (keptSpans spans 0) 0 0 0 ∧
    Rep text (maskLoop text spans 0 0 0).2 (maskLoop text spans 0 0 0).1 ∧
    (maskLoop text spans 0 0 0).2.map Prod.snd =
      (keptSpans spans 0).map (fun sp => sp.2.2.1) ∧
    ((maskLoop text spans 0 0 0).2.map Prod.fst).Nodup := by
  refine ⟨keptSpans_sublist spans 0,
    keptSpans_chain spans 0 (fun sp hsp => (hval sp hsp).1),
    maskLoop_eq_kept text spans 0 0 0, ?_,
    maskLoop_vals text spans 0 0 0, maskLoop_nodup text spans 0 0 0⟩
  have := maskLoop_rep text spans 0 0 0 hval
  rwa [List.drop_zero] at this

theorem maskLoop_total_structure_witness :
    (maskLoop ("ab cd ef".toList)
      [(0, 2, "ab".toList, false), (1, 3, "b ".toList, false),
        (3, 5, "cd".toList, false)] 0 0 0).2.map Prod.snd =
      ["ab".toList, "cd".toList] := by
  have h := maskLoop_total_structure ("ab cd ef".toList)
    [(0, 2, "ab".toList, false), (1, 3, "b ".toList, false),
      (3, 5, "cd".toList, false)] (by decide)
  rw [h.2.2.2.2.1]
  decide

/-- Claim C9, amended: every masking call produces a token map whose
placeholder tokens are pairwise distinct keys (the map is a well-defined
function on tokens). -/
theorem maskText_keys_nodup (text : List Char) (terms : List (List Char))
    (spacy : List (ℕ × ℕ × List Char)) :
    ((maskText text terms spacy).2.map Prod.fst).Nodup := by
  rw [maskText]
  by_cases h1 : text.isEmpty = true
  · rw [if_pos h1]; simp
  · rw [if_neg h1]
    simp only
    by_cases h2 : (combinedSpans (findUserTermSpans text terms)
        (filterSpacySpans (findUserTermSpans text terms) spacy)).isEmpty = true
    · rw [if_pos h2]; simp
    · rw [if_neg h2]
      exact maskLoop_nodup text _ 0 0 0

/-- Claim C9, counterexample to bijectivity as stated: two occurrences of
the same retain term yield two distinct tokens mapping to the same
original substring, so the token map is not injective on values. -/
theorem tokenMap_value_collision :
    (maskText ("Apple and Apple".toList) ["Apple".toList] []).2 =
      [("<<UT0>>".toList, "Apple".toList),
        ("<<UT1>>".toList, "Apple".toList)] ∧
    ¬ (∀ p ∈ (maskText ("Apple and Apple".toList) ["Apple".toList] []).2,
        ∀ q ∈ (maskText ("Apple and Apple".toList) ["Apple".toList] []).2,
        p.1 ≠ q.1 → p.2 ≠ q.2) := by
  constructor
  · decide
  · decide

/-- Claim C7: retain terms are matched longest first and an occurrence
overlapping an already-claimed position produces no span, so the resulting
`UserTerm` spans are pairwise disjoint for every text and term list; and
with retain terms `["New York", "New York City"]` on a text containing
"New York City" exactly one span covering the full "New York City" is
produced, with no separate span for "New York" inside it. -/
theorem longest_match_law :
    (∀ (text : List Char) (terms : List (List Char)),
      List.Pairwise spanDisj (findUserTermSpans text terms)) ∧
    findUserTermSpans ("I love New York City!".toList)
        ["New York".toList, "New York City".toList] =
      [(7, 20, "New York City".toList)] :=
  ⟨fun text terms => findUserTermSpans_pairwise text terms, by decide⟩

/-- Claim C6: an entity span is kept (with exactly its original endpoints
and text — never truncated) iff it is disjoint from every `UserTerm` span,
and every `UserTerm` span reaches the combined list unmodified. -/
theorem precedence_law :
    ∀ (text : List Char) (terms : List (List Char))
      (spacy : List (ℕ × ℕ × List Char)) (s e : ℕ) (v : List Char),
      (((s, e, v, false) ∈ combinedSpans (findUserTermSpans text terms)
          (filterSpacySpans (findUserTermSpans text terms) spacy)) ↔
        ((s, e, v) ∈ spacy ∧ ∀ u ∈ findUserTermSpans text terms,
          e ≤ u.1 ∨ u.2.1 ≤ s)) ∧
      (∀ u ∈ findUserTermSpans text terms,
        (u.1, u.2.1, u.2.2, true) ∈
          combinedSpans (findUserTermSpans text terms)
            (filterSpacySpans (findUserTermSpans text terms) spacy)) := by
  intro text terms spacy s e v
  constructor
  · constructor
    · intro h
      rw [combinedSpans, List.mem_append] at h
      rcases h with h | h
      · exfalso
        obtain ⟨q, hq, heq⟩ := List.mem_map.1 h
        have := congrArg (fun x : ℕ × ℕ × List Char × Bool => x.2.2.2) heq
        simp at this
      · obtain ⟨q, hq, heq⟩ := List.mem_map.1 h
        obtain ⟨q1, q2, q3⟩ := q
        simp only [Prod.mk.injEq] at heq
        obtain ⟨rfl, rfl, rfl, -⟩ := heq
        rw [filterSpacySpans, List.mem_filter] at hq
        refine ⟨hq.1, ?_⟩
        intro u hu
        have h2 := hq.2
        simp only [Bool.not_eq_eq_eq_not, Bool.not_true, List.any_eq_false,
          Bool.not_eq_false', Bool.or_eq_true, decide_eq_true_eq] at h2
        have h3 := h2 u hu
        have h4 : (decide (q2 ≤ u.1) || decide (u.2.1 ≤ q1)) = true := by
          cases hx : (decide (q2 ≤ u.1) || decide (u.2.1 ≤ q1)) with
          | false => exact absurd hx h3
          | true => rfl
        simp only [Bool.or_eq_true, decide_eq_true_eq] at h4
        exact h4
    · rintro ⟨h1, h2⟩
      rw [combinedSpans, List.mem_append]
      right
      refine List.mem_map.2 ⟨(s, e, v), ?_, rfl⟩
      rw [filterSpacySpans, List.mem_filter]
      refine ⟨h1, ?_⟩
      simp only [Bool.not_eq_eq_eq_not, Bool.not_true, List.any_eq_false]
      intro x hx
      rcases h2 x hx with h3 | h3 <;> simp [h3]
  · intro u hu
    rw [combinedSpans, List.mem_append]
    left
    exact List.mem_map.2 ⟨u, hu, rfl⟩

theorem precedence_law_witness :
    ((5, 15, "John Smith".toList, false) ∉
      combinedSpans (findUserTermSpans ("Call John Smith now".toList)
          ["John".toList])
        (filterSpacySpans (findUserTermSpans ("Call John Smith now".toList)
            ["John".toList]) [(5, 15, "John Smith".toList)])) ∧
    ((5, 9, "John".toList, true) ∈
      combinedSpans (findUserTermSpans ("Call John Smith now".toList)
          ["John".toList])
        (filterSpacySpans (findUserTermSpans ("Call John Smith now".toList)
            ["John".toList]) [(5, 15, "John Smith".toList)])) := by
  have h := precedence_law ("Call John Smith now".toList) ["John".toList]
    [(5, 15, "John Smith".toList)] 5 15 ("John Smith".toList)
  constructor
  · intro hmem
    have h2 := (h.1).1 hmem
    have h3 := h2.2 (5, 9, "John".toList) (by decide)
    simp at h3
  · exact h.2 (5, 9, "John".toList) (by decide)

/-! ### The quality assessor (`validate_translation_quality`) -/

/-- Claim C5: the assessor always returns a score in `[0, 40]` (the
codomain is `ℕ`, so the lower bound is inherent) and never propagates a
failure: a parseable number is clamped into `[0, 40]`, a transport error
(`none`) or an unparsable response yields exactly the neutral score 20. -/
theorem quality_score_contract :
    (∀ resp, validateQuality resp ≤ 40) ∧
    validateQuality none = 20 ∧
    (∀ c, firstNumber (strip c) = none → validateQuality (some c) = 20) ∧
    (∀ c k, firstNumber (strip c) = some k →
      validateQuality (some c) = min 40 k) := by
  refine ⟨?_, rfl, ?_, ?_⟩
  · intro resp
    cases resp with
    | none => decide
    | some c =>
      rw [validateQuality]
      cases h : firstNumber (strip c) with
      | none => decide
      | some k => exact min_le_left _ _
  · intro c h
    rw [validateQuality, h]
  · intro c k h
    rw [validateQuality, h]

theorem quality_score_contract_witness :
    validateQuality (some ("Total: 55 points".toList)) = 40 ∧
    validateQuality (some ("no score given".toList)) = 20 := by
  constructor
  · rw [quality_score_contract.2.2.2 ("Total: 55 points".toList) 55 (by decide)]
    decide
  · exact quality_score_contract.2.2.1 ("no score given".toList) (by decide)

/-! ### The retry state machine (`translate_text_with_quality`) -/

/-- A non-terminating attempt (`m` not last, and not an accepted non-empty
translation) advances to the next attempt with one more request and
possibly one backoff sleep (none when the translation came back empty —
the `continue` of line 161 skips line 172). -/
theorem twqGo_skip (text : List Char) (terms : List (List Char))
    (spacy : List (ℕ × ℕ × List Char)) (oracle qresp : ℕ → Option (List Char))
    {m : ℕ} (f r s : ℕ) (hm : m ≠ maxRetries - 1)
    (hno : ∀ raw, oracle m = some raw →
      ¬ (candidateOf text terms spacy raw ≠ [] ∧
        qualityThreshold ≤ validateQuality (qresp m))) :
    ∃ d, twqGo text terms spacy oracle qresp (f + 1) m r s =
      twqGo text terms spacy oracle qresp f (m + 1) (r + 1) (s + d) := by
  cases horacle : oracle m with
  | none => exact ⟨1, by simp [twqGo, horacle, hm]⟩
  | some raw =>
    by_cases hc : (candidateOf text terms spacy raw).isEmpty = true
    · exact ⟨0, by simp [twqGo, horacle, hc, hm]⟩
    · have hne : candidateOf text terms spacy raw ≠ [] := by
        intro hx
        rw [hx] at hc
        exact hc rfl
      have hq : ¬ qualityThreshold ≤ validateQuality (qresp m) := by
        intro hq'
        exact hno raw horacle ⟨hne, hq'⟩
      exact ⟨1, by simp [twqGo, horacle, hc, hm, hq]⟩

/-- An accepted attempt (non-empty translation, score at threshold or last
attempt) terminates the loop with the candidate and its score. -/
theorem twqGo_accept (text : List Char) (terms : List (List Char))
    (spacy : List (ℕ × ℕ × List Char)) (oracle qresp : ℕ → Option (List Char))
    {n : ℕ} (f r s : ℕ) (raw : List Char) (hraw : oracle n = some raw)
    (hne : candidateOf text terms spacy raw ≠ [])
    (hacc : qualityThreshold ≤ validateQuality (qresp n) ∨ n = maxRetries - 1) :
    twqGo text terms spacy oracle qresp (f + 1) n r s =
      ⟨candidateOf text terms spacy raw, validateQuality (qresp n), r + 1, s⟩ := by
  have hc : (candidateOf text terms spacy raw).isEmpty = false := by
    cases hx : candidateOf text terms spacy raw with
    | nil => exact absurd hx hne
    | cons _ _ => rfl
  simp [twqGo, hraw, hc, hacc]

/-- A last attempt whose translation fails or comes back empty degrades to
the original text with score 0. -/
theorem twqGo_fail_last (text : List Char) (terms : List (List Char))
    (spacy : List (ℕ × ℕ × List Char)) (oracle qresp : ℕ → Option (List Char))
    (f r s : ℕ)
    (hfail : ∀ raw, oracle (maxRetries - 1) = some raw →
      candidateOf text terms spacy raw = []) :
    twqGo text terms spacy oracle qresp (f + 1) (maxRetries - 1) r s =
      ⟨text, 0, r + 1, s⟩ := by
  cases horacle : oracle (maxRetries - 1) with
  | none => simp [twqGo, horacle]
  | some raw =>
    have hc : (candidateOf text terms spacy raw).isEmpty = true := by
      rw [hfail raw horacle]
      rfl
    simp [twqGo, horacle, hc]

/-- Each executed attempt issues a request, so a run with positive fuel
makes at least one request beyond the count so far. -/
theorem twqGo_req_ge (text : List Char) (terms : List (List Char))
    (spacy : List (ℕ × ℕ × List Char)) (oracle qresp : ℕ → Option (List Char)) :
    ∀ (f a r s : ℕ),
      r + min 1 f ≤ (twqGo text terms spacy oracle qresp f a r s).requests := by
  intro f
  induction f with
  | zero => intro a r s; simp [twqGo]
  | succ f ih =>
    intro a r s
    have hrec : ∀ a' s',
        r + min 1 (f + 1) ≤
          (twqGo text terms spacy oracle qresp f a' (r + 1) s').requests := by
      intro a' s'
      have h1 := ih a' (r + 1) s'
      omega
    cases horacle : oracle a with
    | none =>
      simp only [twqGo, horacle]
      by_cases hm : a = maxRetries - 1
      · rw [if_pos hm]
        simp
      · rw [if_neg hm]
        exact hrec _ _
    | some raw =>
      simp only [twqGo, horacle]
      by_cases hc : (candidateOf text terms spacy raw).isEmpty = true
      · rw [if_pos hc]
        by_cases hm : a = maxRetries - 1
        · rw [if_pos hm]
          simp
        · rw [if_neg hm]
          exact hrec _ _
      · rw [if_neg hc]
        by_cases hacc : qualityThreshold ≤ validateQuality (qresp a) ∨
          a = maxRetries - 1
        · rw [if_pos hacc]
          simp
        · rw [if_neg hacc]
          exact hrec _ _

/-- If no attempt before `n` accepts, the loop reaches attempt `n` having
issued exactly `n` requests. -/
theorem twqGo_run (text : List Char) (terms : List (List Char))
    (spacy : List (ℕ × ℕ × List Char)) (oracle qresp : ℕ → Option (List Char)) :
    ∀ (n : ℕ), n < maxRetries →
      (∀ m, m < n → ∀ raw, oracle m = some raw →
        ¬ (candidateOf text terms spacy raw ≠ [] ∧
          qualityThreshold ≤ validateQuality (qresp m))) →
      ∃ s', translateTextWithQuality text terms spacy oracle qresp =
        twqGo text terms spacy oracle qresp (maxRetries - n) n n s' := by
  intro n
  induction n with
  | zero => intro _ _; exact ⟨0, rfl⟩
  | succ n ih =>
    intro hn hreach
    obtain ⟨s', hrun⟩ := ih (by omega)
      (fun m hm raw hraw => hreach m (by omega) raw hraw)
    have hm : n ≠ maxRetries - 1 := by omega
    obtain ⟨d, hstep⟩ := twqGo_skip text terms spacy oracle qresp
      (maxRetries - (n + 1)) n s' hm (hreach n (by omega))
    have hfuel : maxRetries - n = maxRetries - (n + 1) + 1 := by omega
    rw [hfuel] at hrun
    exact ⟨s' + d, hrun.trans hstep⟩

/-- Claim C2: once the loop reaches attempt `n` (no earlier attempt
accepted) and attempt `n` yields a non-empty unmasked translation, the
loop terminates at attempt `n` returning that candidate with its score iff
the score meets the threshold or `n` is the last attempt; in particular a
first attempt scoring at threshold returns after exactly one translation
request and no backoff sleep. -/
theorem retry_acceptance (text : List Char) (terms : List (List Char))
    (spacy : List (ℕ × ℕ × List Char)) (oracle qresp : ℕ → Option (List Char))
    (n : ℕ) (hn : n < maxRetries)
    (hreach : ∀ m, m < n → ∀ raw, oracle m = some raw →
      ¬ (candidateOf text terms spacy raw ≠ [] ∧
        qualityThreshold ≤ validateQuality (qresp m)))
    (raw : List Char) (hraw : oracle n = some raw)
    (hne : candidateOf text terms spacy raw ≠ []) :
    (((translateTextWithQuality text terms spacy oracle qresp).text =
        candidateOf text terms spacy raw ∧
      (translateTextWithQuality text terms spacy oracle qresp).score =
        validateQuality (qresp n) ∧
      (translateTextWithQuality text terms spacy oracle qresp).requests =
        n + 1) ↔
      (qualityThreshold ≤ validateQuality (qresp n) ∨ n = maxRetries - 1)) ∧
    (n = 0 → qualityThreshold ≤ validateQuality (qresp 0) →
      translateTextWithQuality text terms spacy oracle qresp =
        ⟨candidateOf text terms spacy raw, validateQuality (qresp 0), 1, 0⟩) := by
  obtain ⟨s', hrun⟩ := twqGo_run text terms spacy oracle qresp n hn hreach
  have hfuel : maxRetries - n = maxRetries - n - 1 + 1 := by
    have : maxRetries = 3 := rfl
    omega
  rw [hfuel] at hrun
  constructor
  · constructor
    · rintro ⟨h1, h2, h3⟩
      by_contra hacc
      push_neg at hacc
      obtain ⟨hq, hlast⟩ := hacc
      obtain ⟨d, hstep⟩ := twqGo_skip text terms spacy oracle qresp
        (maxRetries - n - 1) n s' hlast
        (by
          intro raw' hraw'
          rw [hraw] at hraw'
          injection hraw' with hraw''
          subst hraw''
          rintro ⟨-, hq'⟩
          omega)
      rw [hrun, hstep] at h3
      have hge := twqGo_req_ge text terms spacy oracle qresp
        (maxRetries - n - 1) (n + 1) (n + 1) (s' + d)
      have hf1 : 1 ≤ maxRetries - n - 1 := by
        have h3' : maxRetries = 3 := rfl
        omega
      omega
    · intro hacc
      rw [hrun, twqGo_accept text terms spacy oracle qresp _ n s' raw hraw hne hacc]
      exact ⟨rfl, rfl, rfl⟩
  · rintro rfl hq0
    have h30 : (maxRetries : ℕ) = 2 + 1 := rfl
    rw [translateTextWithQuality, h30,
      twqGo_accept text terms spacy oracle qresp 2 0 0 raw hraw hne (Or.inl hq0)]

theorem retry_acceptance_witness :
    translateTextWithQuality ("Hi".toList) [] []
        (fun _ => some (" Bonjour ".toList)) (fun _ => some ("35".toList)) =
      ⟨"Bonjour".toList, 35, 1, 0⟩ := by
  have h := retry_acceptance ("Hi".toList) [] []
    (fun _ => some (" Bonjour ".toList)) (fun _ => some ("35".toList))
    0 (by decide) (fun m hm => absurd hm (by omega)) (" Bonjour ".toList)
    rfl (by decide)
  have h2 := h.2 rfl (by decide)
  rw [h2]
  have hc : candidateOf ("Hi".toList) [] [] (" Bonjour ".toList) =
      "Bonjour".toList := by decide
  have hv : validateQuality ((fun _ : ℕ => some ("35".toList)) 0) = 35 := by decide
  rw [hc, hv]

/-- Claim C3: when every attempt fails with a request error or an empty
unmasked translation, the loop degrades to the original text with score 0
after exactly `maxRetries` attempts (in this embedding the function is
total, so no exception reaches the caller). -/
theorem degradation_guarantee (text : List Char) (terms : List (List Char))
    (spacy : List (ℕ × ℕ × List Char)) (oracle qresp : ℕ → Option (List Char))
    (hfail : ∀ m, m < maxRetries → ∀ raw, oracle m = some raw →
      candidateOf text terms spacy raw = []) :
    (translateTextWithQuality text terms spacy oracle qresp).text = text ∧
    (translateTextWithQuality text terms spacy oracle qresp).score = 0 ∧
    (translateTextWithQuality text terms spacy oracle qresp).requests =
      maxRetries := by
  have hM : maxRetries = 3 := rfl
  obtain ⟨s', hrun⟩ := twqGo_run text terms spacy oracle qresp (maxRetries - 1)
    (by omega)
    (by
      intro m hm raw hraw
      rintro ⟨hne, -⟩
      exact hne (hfail m (by omega) raw hraw))
  have hfuel : maxRetries - (maxRetries - 1) = 0 + 1 := rfl
  rw [hfuel] at hrun
  rw [hrun, twqGo_fail_last text terms spacy oracle qresp 0 (maxRetries - 1) s'
    (fun raw hraw => hfail (maxRetries - 1) (by omega) raw hraw)]
  exact ⟨rfl, rfl, rfl⟩

theorem degradation_guarantee_witness :
    (translateTextWithQuality ("Hi".toList) [] [] (fun _ => none)
      (fun _ => none)).text = "Hi".toList ∧
    (translateTextWithQuality ("Hi".toList) [] [] (fun _ => none)
      (fun _ => none)).score = 0 ∧
    (translateTextWithQuality ("Hi".toList) [] [] (fun _ => none)
      (fun _ => none)).requests = maxRetries :=
  degradation_guarantee ("Hi".toList) [] [] (fun _ => none) (fun _ => none)
    (fun m _ raw hraw => by simp at hraw)

/-! ### Segment deduplication and the progress stream -/

theorem ddGo_mem {α : Type} [BEq α] [LawfulBEq α] :
    ∀ (l seen : List α) (x : α), x ∈ ddGo seen l ↔ (x ∈ l ∧ x ∉ seen) := by
  intro l
  induction l with
  | nil => intro seen x; simp [ddGo]
  | cons a l' ih =>
    intro seen x
    rw [ddGo]
    by_cases h : seen.contains a = true
    · rw [if_pos h]
      have ha : a ∈ seen := List.elem_iff.1 h
      rw [ih]
      constructor
      · rintro ⟨h1, h2⟩
        exact ⟨List.mem_cons_of_mem _ h1, h2⟩
      · rintro ⟨h1, h2⟩
        rcases List.mem_cons.1 h1 with rfl | h1
        · exact absurd ha h2
        · exact ⟨h1, h2⟩
    · rw [if_neg h]
      have ha : a ∉ seen := by
        intro hx
        exact h (List.elem_iff.2 hx)
      rw [List.mem_cons, ih]
      constructor
      · rintro (rfl | ⟨h1, h2⟩)
        · exact ⟨List.mem_cons_self _ _, ha⟩
        · exact ⟨List.mem_cons_of_mem _ h1,
            fun hx => h2 (List.mem_cons_of_mem _ hx)⟩
      · rintro ⟨h1, h2⟩
        rcases List.mem_cons.1 h1 with rfl | h1
        · exact Or.inl rfl
        · by_cases hxa : x = a
          · exact Or.inl hxa
          · exact Or.inr ⟨h1, by
              intro hx
              rcases List.mem_cons.1 hx with h3 | h3
              · exact hxa h3
              · exact h2 h3⟩

theorem ddGo_nodup {α : Type} [BEq α] [LawfulBEq α] :
    ∀ (l seen : List α), (ddGo seen l).Nodup := by
  intro l
  induction l with
  | nil => intro seen; simp [ddGo]
  | cons a l' ih =>
    intro seen
    rw [ddGo]
    by_cases h : seen.contains a = true
    · rw [if_pos h]
      exact ih seen
    · rw [if_neg h]
      rw [List.nodup_cons]
      refine ⟨?_, ih _⟩
      intro hx
      exact ((ddGo_mem l' (a :: seen) a).1 hx).2 (List.mem_cons_self _ _)

theorem emitGo_length :
    ∀ (rem acc : List ℕ) (total : ℕ),
      (emitGo total acc rem).length = rem.length := by
  intro rem
  induction rem with
  | nil => intro acc total; rfl
  | cons q rest ih =>
    intro acc total
    rw [emitGo]
    simp [ih]

theorem emitGo_get :
    ∀ (rem acc : List ℕ) (total i : ℕ), i < rem.length →
      (emitGo total acc rem)[i]? =
        some ((((acc.length + i + 1 : ℕ) : ℚ) / (total : ℚ)) * 100,
          avgQ (acc ++ rem.take (i + 1))) := by
  intro rem
  induction rem with
  | nil => intro acc total i hi; simp at hi
  | cons q rest ih =>
    intro acc total i hi
    rw [emitGo]
    cases i with
    | zero => simp
    | succ i =>
      rw [List.getElem?_cons_succ]
      rw [ih (acc ++ [q]) total i (by simpa using hi)]
      have h1 : (acc ++ [q]).length + i + 1 = acc.length + (i + 1) + 1 := by
        simp
        omega
      have h2 : (acc ++ [q]) ++ rest.take (i + 1) =
          acc ++ (q :: rest).take (i + 1 + 1) := by
        rw [List.take_succ_cons, List.append_assoc]
        rfl
      rw [h1, h2]

/-- Claim C4: the document pipeline submits exactly one translation per
distinct translatable core text (`uniqueCores` is duplicate-free and holds
exactly the translatable cores); for `k = (uniqueCores paras).length`
segments and completion-order scores `qs` it yields exactly `k` events,
the `i`-th (0-based) carrying progress `(i+1)/k·100` and the mean of the
first `i+1` completed scores, so progress is strictly increasing and the
final event is `100`; for `k = 0` no event is produced.  (Arithmetic is
modelled exactly, in `ℚ`; the Python code computes the same formulas in
floating point.) -/
theorem progress_sequence (paras : List (List Char)) (qs : List ℕ)
    (hq : qs.length = (uniqueCores paras).length) :
    (uniqueCores paras).Nodup ∧
    (∀ t, t ∈ uniqueCores paras ↔
      (isTranslatable t = true ∧ ∃ p ∈ paras, (splitCore p).2 = t)) ∧
    (pipelineEvents paras qs).length = (uniqueCores paras).length ∧
    (∀ i, i < (uniqueCores paras).length →
      (pipelineEvents paras qs)[i]? =
        some ((((i : ℚ) + 1) / ((uniqueCores paras).length : ℚ)) * 100,
          (((qs.take (i + 1)).sum : ℚ)) / ((i : ℚ) + 1))) ∧
    (∀ i j a b, i < j → j < (uniqueCores paras).length →
      (pipelineEvents paras qs)[i]? = some a →
      (pipelineEvents paras qs)[j]? = some b → a.1 < b.1) ∧
    (0 < (uniqueCores paras).length →
      (pipelineEvents paras qs)[(uniqueCores paras).length - 1]? =
        some (100, ((qs.sum : ℚ) / ((uniqueCores paras).length : ℚ)))) ∧
    ((uniqueCores paras).length = 0 → pipelineEvents paras qs = []) := by
  have hmem : ∀ t, t ∈ uniqueCores paras ↔
      (isTranslatable t = true ∧ ∃ p ∈ paras, (splitCore p).2 = t) := by
    intro t
    rw [uniqueCores, ddGo_mem]
    simp only [List.mem_filter, List.mem_map, List.not_mem_nil,
      not_false_iff, and_true]
    constructor
    · rintro ⟨⟨p, hp, rfl⟩, h2⟩
      exact ⟨h2, p, hp, rfl⟩
    · rintro ⟨h2, p, hp, rfl⟩
      exact ⟨⟨p, hp, rfl⟩, h2⟩
  have hidx : ∀ i, i < (uniqueCores paras).length →
      (pipelineEvents paras qs)[i]? =
        some ((((i : ℚ) + 1) / ((uniqueCores paras).length : ℚ)) * 100,
          (((qs.take (i + 1)).sum : ℚ)) / ((i : ℚ) + 1)) := by
    intro i hi
    have hne : (uniqueCores paras).isEmpty = false := by
      cases hx : uniqueCores paras with
      | nil => rw [hx] at hi; simp at hi
      | cons _ _ => rfl
    rw [pipelineEvents, if_neg (by rw [hne]; simp)]
    rw [emitGo_get qs [] _ i (by omega)]
    congr 2
    · congr 1
      push_cast
      simp
    · rw [avgQ]
      simp only [List.nil_append]
      congr 1
      rw [List.length_take]
      have : min (i + 1) qs.length = i + 1 := by omega
      rw [this]
      push_cast
      ring
  refine ⟨?_, hmem, ?_, hidx, ?_, ?_, ?_⟩
  · exact ddGo_nodup _ []
  · by_cases hk : (uniqueCores paras).isEmpty = true
    · rw [pipelineEvents, if_pos hk]
      rw [List.isEmpty_iff.1 hk]
      rfl
    · rw [pipelineEvents, if_neg hk, emitGo_length, hq]
  · intro i j a b hij hj ha hb
    rw [hidx i (by omega)] at ha
    rw [hidx j hj] at hb
    injection ha with ha
    injection hb with hb
    rw [← ha, ← hb]
    simp only
    have hkpos : (0 : ℚ) < ((uniqueCores paras).length : ℚ) := by
      have : 0 < (uniqueCores paras).length := by omega
      exact_mod_cast this
    have h1 : ((i : ℚ) + 1) / ((uniqueCores paras).length : ℚ) <
        ((j : ℚ) + 1) / ((uniqueCores paras).length : ℚ) := by
      apply div_lt_div_of_pos_right ?_ hkpos
      have : (i : ℚ) < (j : ℚ) := by exact_mod_cast hij
      linarith
    have h100 : (0 : ℚ) < 100 := by norm_num
    exact mul_lt_mul_of_pos_right h1 h100
  · intro hk
    rw [hidx _ (by omega)]
    have hcast : (((uniqueCores paras).length - 1 : ℕ) : ℚ) + 1 =
        ((uniqueCores paras).length : ℚ) := by
      have h1 : (uniqueCores paras).length - 1 + 1 = (uniqueCores paras).length := by
        omega
      exact_mod_cast congrArg (fun n : ℕ => (n : ℚ)) h1
    rw [hcast]
    have hkq : ((uniqueCores paras).length : ℚ) ≠ 0 := by
      have : 0 < (uniqueCores paras).length := hk
      positivity
    rw [div_self hkq, one_mul]
    have htake : qs.take ((uniqueCores paras).length - 1 + 1) = qs := by
      apply List.take_of_length_le
      omega
    rw [htake]
  · intro hk
    rw [pipelineEvents, if_pos (by
      cases hx : uniqueCores paras with
      | nil => rfl
      | cons _ _ => rw [hx] at hk; simp at hk)]

theorem progress_sequence_witness :
    (pipelineEvents ["(1) Hello".toList, "Hello".toList] [35])[0]? =
      some (100, 35) := by
  have h := progress_sequence ["(1) Hello".toList, "Hello".toList] [35]
    (by decide)
  have h0 := h.2.2.2.2.2.1 (by decide)
  have hk : (uniqueCores ["(1) Hello".toList, "Hello".toList]).length = 1 := by
    decide
  rw [hk] at h0
  simpa using h0

/-! ### Prefix splitting and reassembly -/

theorem take_takeWhile_len (p : Char → Bool) (l : List Char) :
    l.take (l.takeWhile p).length = l.takeWhile p := by
  generalize hdef : l.takeWhile p = tw
  have hr : tw ++ l.dropWhile p = l := by
    rw [← hdef]
    exact l.takeWhile_append_dropWhile p
  rw [← hr, List.take_left]

/-- A list is its `takeWhile` followed by whatever its matching `drop`
produced. -/
theorem takeWhile_drop_split {p : Char → Bool} {l r : List Char}
    (h : l.drop (l.takeWhile p).length = r) : l = l.takeWhile p ++ r := by
  conv_lhs => rw [← List.take_append_drop (l.takeWhile p).length l]
  rw [take_takeWhile_len, h]

theorem tryNumM_pre {rest m : List Char} (h : tryNumM rest = some m) :
    m <+: rest := by
  rw [tryNumM] at h
  by_cases hds : (rest.takeWhile Char.isDigit).isEmpty = true
  · rw [if_pos hds] at h
    simp at h
  · rw [if_neg hds] at h
    split at h
    · rename_i tail heq
      simp only [Option.some.injEq] at h
      subst h
      refine ⟨tail.dropWhile Char.isWhitespace, ?_⟩
      conv_rhs => rw [takeWhile_drop_split heq]
      simp [List.takeWhile_append_dropWhile]
    · exact Option.noConfusion h

theorem tryParenNumM_pre {rest m : List Char} (h : tryParenNumM rest = some m) :
    m <+: rest := by
  rw [tryParenNumM.eq_def] at h
  split at h
  · rename_i r1
    simp only at h
    by_cases hds : (r1.takeWhile Char.isDigit).isEmpty = true
    · rw [if_pos hds] at h
      simp at h
    · rw [if_neg hds] at h
      split at h
      · rename_i tail heq
        simp only [Option.some.injEq] at h
        subst h
        refine ⟨tail.dropWhile Char.isWhitespace, ?_⟩
        rw [List.cons_append]
        conv_rhs => rw [takeWhile_drop_split heq]
        simp [List.takeWhile_append_dropWhile]
      · exact Option.noConfusion h
  · exact Option.noConfusion h

theorem tryLetterM_pre {rest m : List Char} (h : tryLetterM rest = some m) :
    m <+: rest := by
  rw [tryLetterM.eq_def] at h
  split at h
  · rename_i c tail
    by_cases hc : c.isAlpha = true
    · rw [if_pos hc] at h
      simp only [Option.some.injEq] at h
      subst h
      exact ⟨tail.dropWhile Char.isWhitespace, by
        simp [List.takeWhile_append_dropWhile]⟩
    · rw [if_neg hc] at h
      exact Option.noConfusion h
  · exact Option.noConfusion h

theorem tryParenLetterM_pre {rest m : List Char}
    (h : tryParenLetterM rest = some m) : m <+: rest := by
  rw [tryParenLetterM.eq_def] at h
  split at h
  · rename_i c tail
    by_cases hc : c.isAlpha = true
    · rw [if_pos hc] at h
      simp only [Option.some.injEq] at h
      subst h
      exact ⟨tail.dropWhile Char.isWhitespace, by
        simp [List.takeWhile_append_dropWhile]⟩
    · rw [if_neg hc] at h
      exact Option.noConfusion h
  · exact Option.noConfusion h

theorem markerMatch_pre {t m : List Char} (h : markerMatch t = some m) :
    m <+: t := by
  rw [markerMatch] at h
  split at h
  · rename_i m' heq
    simp only [Option.some.injEq] at h
    subst h
    have hrest : m' <+: t.dropWhile Char.isWhitespace := by
      cases h1 : tryNumM (t.dropWhile Char.isWhitespace) with
      | some x =>
        rw [h1] at heq
        simp only [Option.some_orElse] at heq
        injection heq with heq
        exact heq ▸ tryNumM_pre h1
      | none =>
        rw [h1] at heq
        simp only [Option.none_orElse] at heq
        cases h2 : tryParenNumM (t.dropWhile Char.isWhitespace) with
        | some x =>
          rw [h2] at heq
          simp only [Option.some_orElse] at heq
          injection heq with heq
          exact heq ▸ tryParenNumM_pre h2
        | none =>
          rw [h2] at heq
          simp only [Option.none_orElse] at heq
          cases h3 : tryLetterM (t.dropWhile Char.isWhitespace) with
          | some x =>
            rw [h3] at heq
            simp only [Option.some_orElse] at heq
            injection heq with heq
            exact heq ▸ tryLetterM_pre h3
          | none =>
            rw [h3] at heq
            simp only [Option.none_orElse] at heq
            exact tryParenLetterM_pre heq
    obtain ⟨tail2, htail2⟩ := hrest
    refine ⟨tail2, ?_⟩
    rw [List.append_assoc, htail2]
    exact t.takeWhile_append_dropWhile Char.isWhitespace
  · exact Option.noConfusion h

/-- The marker/core split of a paragraph text is a decomposition of it. -/
theorem splitCore_append (t : List Char) :
    (splitCore t).1 ++ (splitCore t).2 = t := by
  rw [splitCore]
  cases hm : markerMatch t with
  | none => simp
  | some m =>
    simp only
    obtain ⟨rest, hrest⟩ := markerMatch_pre hm
    rw [← hrest, List.drop_left]

theorem lookup_mem {cache : List (List Char × List Char)} {k v : List Char}
    (h : cache.lookup k = some v) : (k, v) ∈ cache := by
  induction cache with
  | nil => simp [List.lookup] at h
  | cons p rest ih =>
    obtain ⟨p1, p2⟩ := p
    rw [List.lookup] at h
    cases hbeq : (k == p1) with
    | true =>
      rw [hbeq] at h
      injection h with h
      subst h
      have : k = p1 := eq_of_beq hbeq
      subst this
      exact List.mem_cons_self _ _
    | false =>
      rw [hbeq] at h
      exact List.mem_cons_of_mem _ (ih h)

/-- Claim C8: after translation, a paragraph whose prefix-stripped core
text has a cached translation is replaced by a single run holding exactly
`prefix ++ cachedTranslation` (styled from the original first run when one
existed); `prefix ++ core` is the original paragraph text; a paragraph
whose core is not in the cache — in particular any untranslatable
paragraph, since the pipeline's cache only holds translatable cores — is
left unmodified. -/
theorem reassembly_postcondition (cache : List (List Char × List Char))
    (runs : List (List Char × RunStyle)) :
    (∀ tr, cache.lookup (splitCore (paraText runs)).2 = some tr →
      reassembleParagraph cache runs =
        [((splitCore (paraText runs)).1 ++ tr,
          match runs.head? with
          | some fr => copyRunStyle fr.2 defaultRunStyle
          | none => defaultRunStyle)]) ∧
    ((splitCore (paraText runs)).1 ++ (splitCore (paraText runs)).2 =
      paraText runs) ∧
    (cache.lookup (splitCore (paraText runs)).2 = none →
      reassembleParagraph cache runs = runs) ∧
    ((∀ key ∈ cache, isTranslatable key.1 = true) →
      isTranslatable (splitCore (paraText runs)).2 = false →
      reassembleParagraph cache runs = runs) := by
  have hnonecase : cache.lookup (splitCore (paraText runs)).2 = none →
      reassembleParagraph cache runs = runs := by
    intro hnone
    rw [reassembleParagraph]
    simp only [hnone]
  refine ⟨?_, splitCore_append _, hnonecase, ?_⟩
  · intro tr htr
    rw [reassembleParagraph]
    simp only [htr]
    cases hh : runs.head? with
    | some fr => simp [hh]
    | none => simp [hh]
  · intro hkeys hcore
    cases hlk : cache.lookup (splitCore (paraText runs)).2 with
    | none => exact hnonecase hlk
    | some tr =>
      exfalso
      have hmem := lookup_mem hlk
      have := hkeys _ hmem
      simp only at this
      rw [hcore] at this
      exact Bool.false_ne_true this

theorem reassembly_postcondition_witness :
    reassembleParagraph [("The cat sat.".toList, "El gato se sentó.".toList)]
        [("(3) The cat sat.".toList, defaultRunStyle)] =
      [("(3) El gato se sentó.".toList,
        copyRunStyle defaultRunStyle defaultRunStyle)] := by
  have h := (reassembly_postcondition
    [("The cat sat.".toList, "El gato se sentó.".toList)]
    [("(3) The cat sat.".toList, defaultRunStyle)]).1
    ("El gato se sentó.".toList) (by decide)
  rw [h]
  decide

end WordTrans
